import Mathlib

/-!
Verification of the dead-code-elimination core of a graphics trace-replay
system, shallowly embedded from the Go sources
`gapis/atom/transform/dead_code_elimination.go` and
`gapis/resolve/dependencygraph/dependency_graph.go`.

State addresses are dense natural numbers; address 0 is the null sentinel.
The liveness tree (`livenessTree` in the source) is embedded as a record of
per-node fields together with the fixed parent map given to
`newLivenessTree`.  The parent map is a list `ps` of parent addresses
(`ps[a]` is the parent of `a`, address 0 meaning "no parent link", exactly
as `newLivenessTree` drops links to `NullStateAddress`).
-/

namespace Gapid

/-- A mutation of the liveness tree: `MarkLive a` or `MarkDead a`. -/
inductive Op where
  | live (a : Nat) : Op
  | dead (a : Nat) : Op
deriving DecidableEq, Repr

/-- Target address of an op. -/
def Op.tgt : Op → Nat
  | .live a => a
  | .dead a => a

/-- Whether an op is a `MarkLive`. -/
def Op.isL : Op → Bool
  | .live _ => true
  | .dead _ => false

/-- Parent map lookup: entries beyond the list are treated as 0 (no parent).
This mirrors the `map[StateAddress]StateAddress` handed to
`newLivenessTree`, which is required to be continuous with no gaps. -/
def pget (ps : List Nat) (a : Nat) : Nat :=
  ps.getD a 0

/-- The parent pointer of node `a` in the liveness tree: `newLivenessTree`
only installs a pointer when the mapped parent is not `NullStateAddress`. -/
def plink (ps : List Nat) (a : Nat) : Option Nat :=
  if pget ps a = 0 then none else some (pget ps a)

/-- Ancestor chain of `a` (nearest parent first), computed with fuel. -/
def chainFuel (ps : List Nat) : Nat → Nat → List Nat
  | 0, _ => []
  | fuel + 1, a =>
    match plink ps a with
    | none => []
    | some p => p :: chainFuel ps fuel p

/-- Ancestor chain of `a` (nearest parent first). -/
def chain (ps : List Nat) (a : Nat) : List Nat :=
  chainFuel ps ps.length a

/-- `a` together with its ancestors. -/
def ancSelf (ps : List Nat) (a : Nat) : List Nat :=
  a :: chain ps a

/-- The parent map is an acyclic forest: every node's chain is coherent with
its parent link.  (For a cyclic map no fuel value can satisfy this, so the
predicate doubles as the acyclicity guard the builder relies on.) -/
def Coherent (ps : List Nat) : Prop :=
  ∀ a < ps.length,
    chain ps a = match plink ps a with
      | none => []
      | some p => p :: chain ps p

instance (ps : List Nat) : Decidable (Coherent ps) := by
  unfold Coherent
  infer_instance

theorem pget_eq_zero_of_ge (ps : List Nat) (a : Nat) (h : ps.length ≤ a) :
    pget ps a = 0 := by
  simp [pget, List.getD_eq_default, List.getD, h, List.getElem?_eq_none h]

theorem chain_eq_nil_of_ge (ps : List Nat) (a : Nat) (h : ps.length ≤ a) :
    chain ps a = [] := by
  unfold chain
  cases hl : ps.length with
  | zero => simp [chainFuel]
  | succ n =>
    simp only [chainFuel, plink, pget_eq_zero_of_ge ps a (hl ▸ h)]
    rfl

/-- Coherence, stated for every natural number address. -/
theorem chain_coh {ps : List Nat} (hc : Coherent ps) (a : Nat) :
    chain ps a = match plink ps a with
      | none => []
      | some p => p :: chain ps p := by
  by_cases h : a < ps.length
  · exact hc a h
  · have h1 : chain ps a = [] := chain_eq_nil_of_ge ps a (Nat.le_of_not_lt h)
    have h2 : plink ps a = none := by
      simp [plink, pget_eq_zero_of_ge ps a (Nat.le_of_not_lt h)]
    rw [h1, h2]

theorem chain_of_plink {ps : List Nat} (hc : Coherent ps) {a p : Nat}
    (h : plink ps a = some p) : chain ps a = p :: chain ps p := by
  have := chain_coh hc a
  rw [h] at this
  exact this

theorem chain_of_plink_none {ps : List Nat} (hc : Coherent ps) {a : Nat}
    (h : plink ps a = none) : chain ps a = [] := by
  have := chain_coh hc a
  rw [h] at this
  exact this

/-- Every member of a chain carries its own chain as a suffix segment. -/
theorem mem_chain_suffix {ps : List Nat} (hc : Coherent ps) :
    ∀ a b, b ∈ chain ps a → ∃ s, chain ps a = s ++ b :: chain ps b := by
  suffices H : ∀ n a b, (chain ps a).length ≤ n → b ∈ chain ps a →
      ∃ s, chain ps a = s ++ b :: chain ps b by
    intro a b hb
    exact H (chain ps a).length a b le_rfl hb
  intro n
  induction n with
  | zero =>
    intro a b h hb
    rw [List.length_eq_zero.mp (Nat.le_zero.mp h)] at hb
    exact absurd hb (List.not_mem_nil b)
  | succ n ih =>
    intro a b h hb
    cases hp : plink ps a with
    | none =>
      rw [chain_of_plink_none hc hp] at hb
      exact absurd hb (List.not_mem_nil b)
    | some p =>
      have hch := chain_of_plink hc hp
      rw [hch] at hb
      rcases List.mem_cons.mp hb with h1 | h1
      · subst h1
        exact ⟨[], by simp [hch]⟩
      · have hlen : (chain ps p).length ≤ n := by
          have := congrArg List.length hch
          simp at this
          omega
        rcases ih p b hlen h1 with ⟨s, hs⟩
        exact ⟨p :: s, by rw [hch, hs]; rfl⟩

/-- A node is never its own strict ancestor. -/
theorem not_mem_chain_self {ps : List Nat} (hc : Coherent ps) (a : Nat) :
    a ∉ chain ps a := by
  intro h
  rcases mem_chain_suffix hc a a h with ⟨s, hs⟩
  have := congrArg List.length hs
  simp at this
  omega

/-- Ancestor-or-self is transitive. -/
theorem ancSelf_trans {ps : List Nat} (hc : Coherent ps) {a b c : Nat}
    (hba : b ∈ ancSelf ps a) (hcb : c ∈ ancSelf ps b) : c ∈ ancSelf ps a := by
  rcases List.mem_cons.mp hba with h | h
  · subst h; exact hcb
  · rcases mem_chain_suffix hc a b h with ⟨s, hs⟩
    rcases List.mem_cons.mp hcb with h2 | h2
    · subst h2
      exact List.mem_cons_of_mem a (h)
    · apply List.mem_cons_of_mem
      rw [hs]
      exact List.mem_append_right s (List.mem_cons_of_mem b h2)

/-- Two ancestors-or-self of the same node are comparable. -/
theorem anc_total {ps : List Nat} (hc : Coherent ps) :
    ∀ x a b, a ∈ ancSelf ps x → b ∈ ancSelf ps x →
      a ∈ ancSelf ps b ∨ b ∈ ancSelf ps a := by
  suffices H : ∀ n x a b, (chain ps x).length ≤ n → a ∈ ancSelf ps x →
      b ∈ ancSelf ps x → a ∈ ancSelf ps b ∨ b ∈ ancSelf ps a by
    intro x a b ha hb
    exact H (chain ps x).length x a b le_rfl ha hb
  intro n
  induction n with
  | zero =>
    intro x a b h ha hb
    have hnil := List.length_eq_zero.mp (Nat.le_zero.mp h)
    rw [ancSelf, hnil] at ha hb
    rcases List.mem_singleton.mp ha with rfl
    rcases List.mem_singleton.mp hb with rfl
    left; exact List.mem_cons_self _ _
  | succ n ih =>
    intro x a b h ha hb
    rcases List.mem_cons.mp ha with h1 | h1
    · subst h1; right; exact hb
    · rcases List.mem_cons.mp hb with h2 | h2
      · subst h2; left; exact ha
      · cases hp : plink ps x with
        | none =>
          rw [chain_of_plink_none hc hp] at h1
          exact absurd h1 (List.not_mem_nil a)
        | some p =>
          have hch := chain_of_plink hc hp
          rw [hch] at h1 h2
          have hlen : (chain ps p).length ≤ n := by
            have := congrArg List.length hch
            simp at this
            omega
          exact ih p a b hlen h1 h2

/-! ### The liveness tree (`livenessTree` in the source) -/

/-- One `livenessNode`: the `live` bit, the cached subtree-or bit `anyLive`,
and the `timestamp` of the last write.  The parent pointer is kept outside
the node, in the ambient parent map `ps`. -/
structure LNode where
  live : Bool
  anyLive : Bool
  timestamp : Nat
deriving DecidableEq, Repr

/-- `livenessTree`: the node array (as a total function on addresses) plus
the global `time` counter. -/
structure LTree where
  nodes : Nat → LNode
  time : Nat

/-- Pointwise update of the node array. -/
def upd (f : Nat → LNode) (i : Nat) (v : LNode) : Nat → LNode :=
  fun j => if j = i then v else f j

theorem upd_same (f : Nat → LNode) (i : Nat) (v : LNode) : upd f i v i = v := by
  simp [upd]

theorem upd_other (f : Nat → LNode) {i j : Nat} (v : LNode) (h : j ≠ i) :
    upd f i v j = f j := by
  simp [upd, h]

/-- `newLivenessTree`: every node starts `{live := false, anyLive := false,
timestamp := 0}` and the clock starts at 1. -/
def newTree : LTree :=
  { nodes := fun _ => { live := false, anyLive := false, timestamp := 0 },
    time := 1 }

/-- The ancestor walk inside `IsLive`: `node` is the current comparison
node, `live` the current answer, and the list the remaining ancestors. -/
def isLiveWalk (nodes : Nat → LNode) : Nat → Bool → List Nat → Bool
  | _, live, [] => live
  | cur, live, p :: rest =>
    if (nodes p).timestamp > (nodes cur).timestamp then
      isLiveWalk nodes p (nodes p).live rest
    else
      isLiveWalk nodes cur live rest

/-- `IsLive`: start from the node's own `anyLive` and walk the ancestors,
switching to any ancestor with a strictly newer timestamp. -/
def IsLive (ps : List Nat) (t : LTree) (a : Nat) : Bool :=
  isLiveWalk t.nodes a (t.nodes a).anyLive (chain ps a)

/-- `MarkDead`: clear the node's bits, stamp it, advance the clock.
Ancestors are not touched. -/
def MarkDead (t : LTree) (a : Nat) : LTree :=
  { nodes := upd t.nodes a { live := false, anyLive := false, timestamp := t.time },
    time := t.time + 1 }

/-- `setAnyLive`, unrolled over the ancestor list of the node being fixed:
first fix the parent recursively, then re-materialize this node if it is
shadowed by the parent's newer timestamp, then set its `anyLive` bit. -/
def setAnyLive (nodes : Nat → LNode) : Nat → List Nat → (Nat → LNode)
  | y, [] => upd nodes y { nodes y with anyLive := true }
  | y, p :: rest =>
    let n1 := setAnyLive nodes p rest
    let n2 :=
      if (n1 y).timestamp < (n1 p).timestamp then
        upd n1 y { n1 y with live := (n1 p).live, timestamp := (n1 p).timestamp }
      else n1
    upd n2 y { n2 y with anyLive := true }

/-- `MarkLive`: set and stamp the node, advance the clock, then run
`setAnyLive` on its parent (if it has one). -/
def MarkLive (ps : List Nat) (t : LTree) (a : Nat) : LTree :=
  let n1 := upd t.nodes a { live := true, anyLive := true, timestamp := t.time }
  let n2 :=
    match plink ps a with
    | none => n1
    | some p => setAnyLive n1 p (chain ps p)
  { nodes := n2, time := t.time + 1 }

/-- Apply one op to the tree. -/
def applyOp (ps : List Nat) (t : LTree) : Op → LTree
  | .live a => MarkLive ps t a
  | .dead a => MarkDead t a

/-- Apply a sequence of ops to the tree, oldest first. -/
def applyOps (ps : List Nat) (t : LTree) (h : List Op) : LTree :=
  h.foldl (applyOp ps) t

theorem applyOps_append (ps : List Nat) (t : LTree) (h : List Op) (op : Op) :
    applyOps ps t (h ++ [op]) = applyOp ps (applyOps ps t h) op := by
  simp [applyOps]

/-! ### Closed-form description of the tree state after a history of ops

Ops in a history `h` happen at times `1, …, h.length`; the op at time `t`
is `h[t-1]`.  `lastIdx p n` is the largest time `t ≤ n` whose op satisfies
`p` (0 if none). -/

/-- Largest `i + 1 ≤ n` with `p i = true`, else 0. -/
def lastIdx (p : Nat → Bool) : Nat → Nat
  | 0 => 0
  | n + 1 => if p n then n + 1 else lastIdx p n

theorem lastIdx_le (p : Nat → Bool) (n : Nat) : lastIdx p n ≤ n := by
  induction n with
  | zero => simp [lastIdx]
  | succ n ih =>
    simp only [lastIdx]
    split
    · exact le_rfl
    · omega

theorem lastIdx_congr {p q : Nat → Bool} (n : Nat) (h : ∀ i < n, p i = q i) :
    lastIdx p n = lastIdx q n := by
  induction n with
  | zero => rfl
  | succ n ih =>
    simp only [lastIdx, h n (Nat.lt_succ_self n)]
    rw [ih (fun i hi => h i (Nat.lt_succ_of_lt hi))]

theorem lastIdx_ge {p : Nat → Bool} {i n : Nat} (hp : p i = true) (hi : i < n) :
    i + 1 ≤ lastIdx p n := by
  induction n with
  | zero => omega
  | succ n ih =>
    simp only [lastIdx]
    rcases Nat.lt_succ_iff_lt_or_eq.mp hi with h | h
    · have := ih h
      split <;> omega
    · subst h
      simp [hp]

theorem lastIdx_kind {p : Nat → Bool} {n : Nat} (h : 0 < lastIdx p n) :
    p (lastIdx p n - 1) = true := by
  induction n with
  | zero => simp [lastIdx] at h
  | succ n ih =>
    simp only [lastIdx] at h ⊢
    by_cases hp : p n
    · simp [hp]
    · simp only [hp, if_false] at h ⊢
      exact ih h

theorem lastIdx_false_above {p : Nat → Bool} {i n : Nat}
    (h1 : lastIdx p n < i + 1) (h2 : i < n) : p i = false := by
  cases hb : p i
  · rfl
  · exact absurd (lastIdx_ge hb h2) (by omega)

theorem lastIdx_succ_ge (p : Nat → Bool) (n : Nat) :
    lastIdx p n ≤ lastIdx p (n + 1) := by
  simp only [lastIdx]
  split
  · exact Nat.le_succ_of_le (lastIdx_le p n)
  · exact le_rfl

theorem lastIdx_mono_bound (p : Nat → Bool) {m n : Nat} (h : m ≤ n) :
    lastIdx p m ≤ lastIdx p n := by
  induction n with
  | zero =>
    have : m = 0 := Nat.le_zero.mp h
    subst this
    exact le_rfl
  | succ n ih =>
    rcases Nat.le_succ_iff_eq_or_le.mp h with h1 | h1
    · subst h1; exact le_rfl
    · exact le_trans (ih h1) (lastIdx_succ_ge p n)

theorem lastIdx_imp {p q : Nat → Bool} (n : Nat)
    (h : ∀ i < n, p i = true → q i = true) : lastIdx p n ≤ lastIdx q n := by
  induction n with
  | zero => exact le_rfl
  | succ n ih =>
    simp only [lastIdx]
    by_cases hp : p n
    · simp [hp, h n (Nat.lt_succ_self n) hp]
    · simp only [hp, if_false]
      have step := ih (fun i hi hpi => h i (Nat.lt_succ_of_lt hi) hpi)
      by_cases hq : q n
      · simp only [hq, if_true]
        exact le_trans step (Nat.le_succ_of_le (lastIdx_le q n))
      · simp only [hq, if_false]
        exact step

/-- Below a bound that already dominates `lastIdx p n`, nothing changes. -/
theorem lastIdx_stable {p : Nat → Bool} {T n : Nat}
    (h1 : lastIdx p n ≤ T) (h2 : T ≤ n) : lastIdx p T = lastIdx p n := by
  apply Nat.le_antisymm
  · exact lastIdx_mono_bound p h2
  · by_cases hz : lastIdx p n = 0
    · omega
    · have hk : p (lastIdx p n - 1) = true := lastIdx_kind (Nat.pos_of_ne_zero hz)
      have : lastIdx p n - 1 < T := by omega
      have := lastIdx_ge hk this
      omega

theorem lastIdx_or (p q : Nat → Bool) (n : Nat) :
    lastIdx (fun i => p i || q i) n = max (lastIdx p n) (lastIdx q n) := by
  induction n with
  | zero => rfl
  | succ n ih =>
    have hp' := lastIdx_le p n
    have hq' := lastIdx_le q n
    simp only [lastIdx, ih]
    by_cases hp : p n <;> by_cases hq : q n <;> simp [hp, hq] <;> omega

/-- The op at time `t ≥ 1` in history `h` (arbitrary default elsewhere). -/
def opAt (h : List Op) (t : Nat) : Op :=
  h.getD (t - 1) (.dead 0)

/-- Whether the op at time `t` is a `MarkLive`. -/
def kindAt (h : List Op) (t : Nat) : Bool :=
  (opAt h t).isL

/-- Event classifiers over single ops, relative to a fixed node `y`. -/
def onAncEv (ps : List Nat) (y : Nat) (op : Op) : Bool :=
  decide (op.tgt ∈ ancSelf ps y)

/-- Events that refresh `y`'s timestamp: a direct op on `y`, or a
`MarkLive` strictly below `y` (whose `setAnyLive` walk passes `y`). -/
def refreshEv (ps : List Nat) (y : Nat) (op : Op) : Bool :=
  decide (op.tgt = y) || (op.isL && decide (y ∈ chain ps op.tgt))

/-- Events that set `y.anyLive`: a `MarkLive` at `y` or below it. -/
def aliveEv (ps : List Nat) (y : Nat) (op : Op) : Bool :=
  op.isL && decide (y ∈ ancSelf ps op.tgt)

/-- Events that clear `y.anyLive`: a `MarkDead` directly on `y`. -/
def deadEv (y : Nat) (op : Op) : Bool :=
  !op.isL && decide (op.tgt = y)

/-- Latest time in `h` whose op satisfies `Ev`. -/
def evLast (Ev : Op → Bool) (h : List Op) : Nat :=
  lastIdx (fun i => Ev (h.getD i (.dead 0))) h.length

/-- Latest time `≤ T` in `h` whose op satisfies `Ev`. -/
def evLastLE (Ev : Op → Bool) (h : List Op) (T : Nat) : Nat :=
  lastIdx (fun i => Ev (h.getD i (.dead 0))) T

/-- Time of the last op on an ancestor-or-self of `y`. -/
def lastT (ps : List Nat) (h : List Op) (y : Nat) : Nat :=
  evLast (onAncEv ps y) h

/-- Time of the last refresh of `y`'s timestamp. -/
def refreshT (ps : List Nat) (h : List Op) (y : Nat) : Nat :=
  evLast (refreshEv ps y) h

/-- Closed form of `y`'s stored timestamp: the last op on an
ancestor-or-self of `y` that is not newer than `y`'s last refresh. -/
def tsSpec (ps : List Nat) (h : List Op) (y : Nat) : Nat :=
  evLastLE (onAncEv ps y) h (refreshT ps h y)

/-- Closed form of `y`'s stored `live` bit. -/
def liveSpec (ps : List Nat) (h : List Op) (y : Nat) : Bool :=
  decide (0 < tsSpec ps h y) && kindAt h (tsSpec ps h y)

/-- Closed form of `y`'s stored `anyLive` bit: the last `MarkLive` at or
below `y` is newer than the last `MarkDead` directly on `y`. -/
def anySpec (ps : List Nat) (h : List Op) (y : Nat) : Bool :=
  decide (evLast (deadEv y) h < evLast (aliveEv ps y) h)

/-- The tree state reached from `newTree` by history `h`, in closed form. -/
def Inv (ps : List Nat) (h : List Op) (s : LTree) : Prop :=
  s.time = h.length + 1 ∧
  ∀ y, (s.nodes y).timestamp = tsSpec ps h y ∧
    (s.nodes y).live = liveSpec ps h y ∧
    (s.nodes y).anyLive = anySpec ps h y

/-! ### The simple reference semantics of the tree

`MarkLive b` answers true at every ancestor and every descendant of `b`;
`MarkDead b` answers false at every descendant of `b`; other nodes keep
their answer.  `Gsem` folds this over the history. -/

/-- One step of the reference semantics. -/
def Gstep (ps : List Nat) (σ : Nat → Bool) : Op → Nat → Bool
  | .live b, x => if b ∈ ancSelf ps x ∨ x ∈ ancSelf ps b then true else σ x
  | .dead b, x => if b ∈ ancSelf ps x then false else σ x

/-- Reference semantics of `IsLive` after history `h`. -/
def Gsem (ps : List Nat) (h : List Op) : Nat → Bool :=
  h.foldl (Gstep ps) (fun _ => false)

theorem Gsem_append (ps : List Nat) (h : List Op) (op : Op) :
    Gsem ps (h ++ [op]) = Gstep ps (Gsem ps h) op := by
  simp [Gsem]

/-! ### The naive O(N) oracle from the specification -/

/-- Naive per-node liveness: the most recent mark applying to `x` (a mark
on `x` itself or on one of its ancestors, each of which marks its whole
subtree) was a `MarkLive`. -/
def naiveLive (ps : List Nat) (h : List Op) (x : Nat) : Bool :=
  h.foldl (fun v op => if op.tgt ∈ ancSelf ps x then op.isL else v) false

theorem naiveLive_append (ps : List Nat) (h : List Op) (op : Op) (x : Nat) :
    naiveLive ps (h ++ [op]) x =
      if op.tgt ∈ ancSelf ps x then op.isL else naiveLive ps h x := by
  simp [naiveLive]

/-- Naive oracle for `IsLive a`: some node of the subtree rooted at `a`
(among the tree's `n` addresses) is naively live. -/
def oracleLive (ps : List Nat) (n : Nat) (h : List Op) (a : Nat) : Bool :=
  (List.range n).any fun x => decide (a ∈ ancSelf ps x) && naiveLive ps h x

/-! ### Behaviour of the history quantities under appending one op -/

theorem evLast_le (Ev : Op → Bool) (h : List Op) : evLast Ev h ≤ h.length :=
  lastIdx_le _ _

theorem evLastLE_le (Ev : Op → Bool) (h : List Op) (T : Nat) :
    evLastLE Ev h T ≤ T :=
  lastIdx_le _ _

theorem evLast_append (Ev : Op → Bool) (h : List Op) (op : Op) :
    evLast Ev (h ++ [op]) = if Ev op then h.length + 1 else evLast Ev h := by
  unfold evLast
  simp only [List.length_append, List.length_singleton]
  have hl : ∀ i < h.length,
      Ev ((h ++ [op]).getD i (.dead 0)) = Ev (h.getD i (.dead 0)) := by
    intro i hi
    rw [List.getD_append _ _ _ _ hi]
  have hat : (h ++ [op]).getD h.length (.dead 0) = op := by
    rw [List.getD_append_right _ _ _ _ le_rfl]
    simp
  show lastIdx _ (h.length + 1) = _
  simp only [lastIdx, hat]
  split
  · rfl
  · exact lastIdx_congr h.length hl

theorem evLastLE_append (Ev : Op → Bool) (h : List Op) (op : Op) {T : Nat}
    (hT : T ≤ h.length) : evLastLE Ev (h ++ [op]) T = evLastLE Ev h T := by
  unfold evLastLE
  apply lastIdx_congr
  intro i hi
  rw [List.getD_append _ _ _ _ (by omega)]

theorem kindAt_append_le (h : List Op) (op : Op) {t : Nat} (h1 : 1 ≤ t)
    (h2 : t ≤ h.length) : kindAt (h ++ [op]) t = kindAt h t := by
  unfold kindAt opAt
  rw [List.getD_append _ _ _ _ (by omega)]

theorem kindAt_append_top (h : List Op) (op : Op) :
    kindAt (h ++ [op]) (h.length + 1) = op.isL := by
  unfold kindAt opAt
  simp only [Nat.add_sub_cancel]
  rw [List.getD_append_right _ _ _ _ le_rfl]
  simp

/-- `tsSpec` never exceeds the refresh time. -/
theorem tsSpec_le_refreshT (ps : List Nat) (h : List Op) (y : Nat) :
    tsSpec ps h y ≤ refreshT ps h y :=
  lastIdx_le _ _

/-- `tsSpec` never exceeds `lastT`. -/
theorem tsSpec_le_lastT (ps : List Nat) (h : List Op) (y : Nat) :
    tsSpec ps h y ≤ lastT ps h y := by
  unfold tsSpec evLastLE lastT evLast
  exact lastIdx_mono_bound _ (by unfold refreshT evLast; exact lastIdx_le _ _)

/-- Time of the last op directly on `y`. -/
def lastOwn (h : List Op) (y : Nat) : Nat :=
  evLast (fun op => decide (op.tgt = y)) h

theorem lastOwn_le_refreshT (ps : List Nat) (h : List Op) (y : Nat) :
    lastOwn h y ≤ refreshT ps h y := by
  unfold lastOwn refreshT evLast
  apply lastIdx_imp
  intro i hi hp
  simp only [refreshEv, Bool.or_eq_true]
  left
  exact hp

/-- `y`'s stored timestamp is at least the time of the last direct op on
`y`. -/
theorem lastOwn_le_tsSpec (ps : List Nat) (h : List Op) (y : Nat) :
    lastOwn h y ≤ tsSpec ps h y := by
  by_cases hz : lastOwn h y = 0
  · omega
  · have hpos : 0 < lastOwn h y := Nat.pos_of_ne_zero hz
    have hk : decide ((h.getD (lastOwn h y - 1) (.dead 0)).tgt = y) = true :=
      lastIdx_kind hpos
    have honanc : onAncEv ps y (h.getD (lastOwn h y - 1) (.dead 0)) = true := by
      simp only [onAncEv, decide_eq_true_eq] at hk ⊢
      rw [hk]
      exact List.mem_cons_self _ _
    have hle : lastOwn h y ≤ refreshT ps h y := lastOwn_le_refreshT ps h y
    have hge := lastIdx_ge (p := fun i => onAncEv ps y (h.getD i (.dead 0)))
      (i := lastOwn h y - 1) (n := refreshT ps h y) honanc (by omega)
    unfold tsSpec evLastLE
    omega

/-- Strict descent: a member of a node's chain never has that node among
its own ancestors-or-self. -/
theorem not_anc_of_mem_chain {ps : List Nat} (hc : Coherent ps) {b y : Nat}
    (hy : y ∈ chain ps b) : b ∉ ancSelf ps y := by
  intro hb
  rcases mem_chain_suffix hc b y hy with ⟨s, hs⟩
  have hsub : ancSelf ps y ⊆ chain ps b := by
    intro w hw
    rw [hs]
    rcases List.mem_cons.mp hw with h1 | h1
    · subst h1; exact List.mem_append_right s (List.mem_cons_self _ _)
    · exact List.mem_append_right s (List.mem_cons_of_mem y h1)
  exact not_mem_chain_self hc b (hsub hb)

/-- Decomposition of `lastT` along one parent link. -/
theorem lastT_decomp {ps : List Nat} (h : List Op) {y p : Nat}
    (hp : chain ps y = p :: chain ps p) :
    lastT ps h y = max (lastOwn h y) (lastT ps h p) := by
  unfold lastT lastOwn evLast
  rw [← lastIdx_or]
  apply lastIdx_congr
  intro i hi
  simp only [onAncEv, ancSelf, hp, List.mem_cons, Bool.decide_or]

/-- `lastT` is monotone along the ancestor relation. -/
theorem lastT_le_of_anc {ps : List Nat} (hc : Coherent ps) (h : List Op)
    {b a : Nat} (hb : b ∈ ancSelf ps a) : lastT ps h b ≤ lastT ps h a := by
  unfold lastT evLast
  apply lastIdx_imp
  intro i hi hpi
  simp only [onAncEv, decide_eq_true_eq] at hpi ⊢
  exact ancSelf_trans hc hb hpi

/-- When the refresh time dominates `lastT`, the stored timestamp is
exactly `lastT`. -/
theorem tsSpec_eq_lastT_of_le {ps : List Nat} {h : List Op} {y : Nat}
    (hle : lastT ps h y ≤ refreshT ps h y) : tsSpec ps h y = lastT ps h y := by
  unfold tsSpec evLastLE
  unfold lastT evLast at hle ⊢
  exact lastIdx_stable hle (by unfold refreshT evLast; exact lastIdx_le _ _)

/-- A node with no parent link always has `tsSpec = lastT`. -/
theorem tsSpec_eq_lastT_of_nil {ps : List Nat} (h : List Op) {y : Nat}
    (hnil : chain ps y = []) : tsSpec ps h y = lastT ps h y := by
  apply tsSpec_eq_lastT_of_le
  unfold lastT refreshT evLast
  apply lastIdx_imp
  intro i hi hpi
  simp only [onAncEv, ancSelf, hnil, List.mem_singleton, decide_eq_true_eq] at hpi
  simp only [refreshEv, Bool.or_eq_true, decide_eq_true_eq]
  left
  exact hpi

/-! ### What the `setAnyLive` walk computes -/

/-- The walk only writes to the node it fixes and that node's ancestors. -/
theorem setAnyLive_frame {ps : List Nat} (hc : Coherent ps) :
    ∀ R y, R = chain ps y → ∀ nodes w, w ∉ ancSelf ps y →
      setAnyLive nodes y R w = nodes w := by
  intro R
  induction R with
  | nil =>
    intro y hR nodes w hw
    simp only [setAnyLive]
    exact upd_other nodes _ (fun hwy => hw (hwy ▸ List.mem_cons_self _ _))
  | cons p rest ih =>
    intro y hR nodes w hw
    have hrest : rest = chain ps p := by
      have := chain_coh hc y
      rw [← hR] at this
      cases hp : plink ps y with
      | none => rw [hp] at this; exact absurd this (by simp)
      | some q =>
        rw [hp] at this
        have hq : p = q ∧ rest = chain ps q := by
          have := this
          injection this with h1 h2
          exact ⟨h1, h2⟩
        rcases hq with ⟨rfl, hr⟩
        exact hr
    have hwp : w ∉ ancSelf ps p := by
      intro hmem
      apply hw
      apply List.mem_cons_of_mem
      rw [← hR]
      simpa [ancSelf, ← hrest] using hmem
    have hwy : w ≠ y := fun hwy => hw (hwy ▸ List.mem_cons_self _ _)
    simp only [setAnyLive]
    rw [upd_other _ _ hwy]
    split
    · rw [upd_other _ _ hwy]
      exact ih p hrest nodes w hwp
    · exact ih p hrest nodes w hwp

/-- Tail of a chain equation is itself a chain. -/
theorem rest_eq_chain {ps : List Nat} (hc : Coherent ps) {y p : Nat}
    {rest : List Nat} (hR : p :: rest = chain ps y) : rest = chain ps p := by
  have hcoh := chain_coh hc y
  rw [← hR] at hcoh
  cases hp : plink ps y with
  | none => rw [hp] at hcoh; exact absurd hcoh (by simp)
  | some q =>
    rw [hp] at hcoh
    injection hcoh with h1 h2
    subst h1
    exact h2

/-- After the walk fixes `y`, every node on `y`'s ancestor-or-self chain
holds timestamp `lastT`, the `live` bit of the op at that time, and a set
`anyLive` bit.  The hypothesis describes the pre-walk state of the chain
(the closed forms of the history `h`). -/
theorem setAnyLive_spec {ps : List Nat} (hc : Coherent ps) (h : List Op) :
    ∀ R y, R = chain ps y →
    ∀ N, (∀ z ∈ ancSelf ps y,
        (N z).timestamp = tsSpec ps h z ∧ (N z).live = liveSpec ps h z) →
    ∀ z ∈ ancSelf ps y,
      (setAnyLive N y R z).timestamp = lastT ps h z ∧
      (setAnyLive N y R z).live
        = (decide (0 < lastT ps h z) && kindAt h (lastT ps h z)) ∧
      (setAnyLive N y R z).anyLive = true := by
  intro R
  induction R with
  | nil =>
    intro y hR N hpre z hz
    have hnil : chain ps y = [] := hR.symm
    have hzy : z = y := by
      rcases List.mem_cons.mp hz with h1 | h1
      · exact h1
      · rw [hnil] at h1; exact absurd h1 (List.not_mem_nil z)
    subst hzy
    have hts : tsSpec ps h z = lastT ps h z := tsSpec_eq_lastT_of_nil h hnil
    rcases hpre z hz with ⟨h1, h2⟩
    simp only [setAnyLive, upd_same]
    refine ⟨by rw [h1, hts], ?_, by trivial⟩
    rw [h2]
    simp only [liveSpec, hts]
  | cons p rest ih =>
    intro y hR N hpre z hz
    have hrest : rest = chain ps p := rest_eq_chain hc hR
    have hchainy : chain ps y = p :: chain ps p := by rw [← hR, hrest]
    have hancp : ancSelf ps p ⊆ ancSelf ps y := by
      intro w hw
      apply List.mem_cons_of_mem
      rw [hchainy]
      simpa [ancSelf] using hw
    have hynp : y ∉ ancSelf ps p := by
      intro hmem
      apply not_mem_chain_self hc y
      rw [hchainy]
      simpa [ancSelf] using hmem
    have hih := ih p hrest N (fun w hw => hpre w (hancp hw))
    have hframe : setAnyLive N p rest y = N y :=
      setAnyLive_frame hc rest p hrest N y hynp
    have hpmem : p ∈ ancSelf ps p := List.mem_cons_self _ _
    rcases hih p hpmem with ⟨hpts, hplive, hpany⟩
    rcases hpre y (List.mem_cons_self _ _) with ⟨hyts, hylive⟩
    have hdec := lastT_decomp h hchainy
    have hown := lastOwn_le_tsSpec ps h y
    have htle := tsSpec_le_lastT ps h y
    simp only [setAnyLive]
    rcases List.mem_cons.mp hz with hzy | hzp
    · -- z = y : the node fixed at this level
      subst hzy
      by_cases hcond :
          (setAnyLive N p rest z).timestamp < (setAnyLive N p rest p).timestamp
      · -- shadowed: re-materialized from the parent
        have hlt : tsSpec ps h z < lastT ps h p := by
          rw [hframe, hyts] at hcond
          rw [hpts] at hcond
          exact hcond
        have heq : lastT ps h z = lastT ps h p := by omega
        simp only [if_pos hcond, upd_same]
        refine ⟨?_, ?_, by trivial⟩
        · rw [hpts, heq]
        · rw [hplive, heq]
      · -- not shadowed: the stored timestamp already equals lastT
        have hge : lastT ps h p ≤ tsSpec ps h z := by
          rw [hframe, hyts, hpts] at hcond
          omega
        have heq : tsSpec ps h z = lastT ps h z := by omega
        simp only [if_neg hcond, upd_same]
        refine ⟨?_, ?_, by trivial⟩
        · rw [hframe, hyts, heq]
        · rw [hframe, hylive]
          simp only [liveSpec, heq]
    · -- z a strict ancestor: untouched at this level, IH applies
      have hzp2 : z ∈ ancSelf ps p := by
        rw [hchainy] at hzp
        simpa [ancSelf, hrest] using hzp
      have hzny : z ≠ y := by
        intro hzy
        exact hynp (hzy ▸ hzp2)
      rcases hih z hzp2 with ⟨h1, h2, h3⟩
      split
      · rw [upd_other _ _ hzny, upd_other _ _ hzny]
        exact ⟨h1, h2, h3⟩
      · rw [upd_other _ _ hzny]
        exact ⟨h1, h2, h3⟩

/-! ### Invariant preservation -/

theorem evLast_eq_LE (Ev : Op → Bool) (h : List Op) :
    evLast Ev h = evLastLE Ev h h.length := rfl

/-- `liveSpec` is unchanged by an appended op when the stored-timestamp
closed form is unchanged. -/
theorem liveSpec_append_of_ts_eq {ps : List Nat} {h : List Op} {op : Op}
    {y : Nat} (hts : tsSpec ps (h ++ [op]) y = tsSpec ps h y) :
    liveSpec ps (h ++ [op]) y = liveSpec ps h y := by
  unfold liveSpec
  rw [hts]
  by_cases hz : 0 < tsSpec ps h y
  · have hle : tsSpec ps h y ≤ h.length :=
      le_trans (tsSpec_le_refreshT ps h y) (evLast_le _ h)
    rw [kindAt_append_le h op hz hle]
  · simp [Nat.le_zero.mp (Nat.not_lt.mp hz)]

/-- The `MarkDead` step preserves the closed-form invariant. -/
theorem Inv_markDead {ps : List Nat} {h : List Op} {s : LTree} (b : Nat)
    (hInv : Inv ps h s) : Inv ps (h ++ [.dead b]) (MarkDead s b) := by
  rcases hInv with ⟨htime, hnodes⟩
  constructor
  · simp [MarkDead, htime]
  · intro y
    by_cases hyb : y = b
    · subst hyb
      have hra : refreshEv ps y (.dead y) = true := by
        simp [refreshEv, Op.tgt]
      have hrefresh : refreshT ps (h ++ [.dead y]) y = h.length + 1 := by
        unfold refreshT
        rw [evLast_append, hra]
        simp
      have honanc : onAncEv ps y (.dead y) = true := by
        simp [onAncEv, Op.tgt, ancSelf]
      have hts : tsSpec ps (h ++ [.dead y]) y = h.length + 1 := by
        unfold tsSpec
        rw [hrefresh]
        have : evLastLE (onAncEv ps y) (h ++ [.dead y]) (h.length + 1)
            = evLast (onAncEv ps y) (h ++ [.dead y]) := by
          rw [evLast_eq_LE]
          simp
        rw [this, evLast_append, honanc]
        simp
      have hdead : evLast (deadEv y) (h ++ [.dead y]) = h.length + 1 := by
        rw [evLast_append]
        simp [deadEv, Op.isL, Op.tgt]
      have halive : evLast (aliveEv ps y) (h ++ [.dead y])
          = evLast (aliveEv ps y) h := by
        rw [evLast_append]
        simp [aliveEv, Op.isL]
      refine ⟨?_, ?_, ?_⟩
      · simp [MarkDead, upd_same, hts, htime]
      · simp [MarkDead, upd_same, liveSpec, hts, kindAt_append_top, Op.isL]
      · simp only [MarkDead, upd_same, anySpec, hdead, halive]
        have := evLast_le (aliveEv ps y) h
        simp
        omega
    · have hnode : (MarkDead s b).nodes y = s.nodes y := by
        simp only [MarkDead]
        exact upd_other _ _ hyb
      have hre : refreshEv ps y (.dead b) = false := by
        simp [refreshEv, Op.tgt, Op.isL, Ne.symm hyb]
      have hrefresh : refreshT ps (h ++ [.dead b]) y = refreshT ps h y := by
        unfold refreshT
        rw [evLast_append, hre]
        simp
      have hts : tsSpec ps (h ++ [.dead b]) y = tsSpec ps h y := by
        unfold tsSpec
        rw [hrefresh]
        exact evLastLE_append _ h _ (evLast_le _ h)
      have halive : evLast (aliveEv ps y) (h ++ [.dead b])
          = evLast (aliveEv ps y) h := by
        rw [evLast_append]
        simp [aliveEv, Op.isL]
      have hdead : evLast (deadEv y) (h ++ [.dead b])
          = evLast (deadEv y) h := by
        rw [evLast_append]
        have : deadEv y (.dead b) = false := by
          simp [deadEv, Op.isL, Op.tgt]
          intro hby
          exact absurd hby.symm hyb
        rw [this]
        simp
      rcases hnodes y with ⟨h1, h2, h3⟩
      refine ⟨?_, ?_, ?_⟩
      · rw [hnode, h1, hts]
      · rw [hnode, h2, liveSpec_append_of_ts_eq hts]
      · rw [hnode, h3]
        simp only [anySpec, halive, hdead]

/-- Unfolding of `MarkLive` when the marked node has no parent link. -/
theorem MarkLive_nodes_none {ps : List Nat} {s : LTree} {b : Nat}
    (hp : plink ps b = none) :
    (MarkLive ps s b).nodes
      = upd s.nodes b { live := true, anyLive := true, timestamp := s.time } := by
  unfold MarkLive
  rw [hp]

/-- Unfolding of `MarkLive` when the marked node has a parent link. -/
theorem MarkLive_nodes_some {ps : List Nat} {s : LTree} {b p : Nat}
    (hp : plink ps b = some p) :
    (MarkLive ps s b).nodes
      = setAnyLive
          (upd s.nodes b { live := true, anyLive := true, timestamp := s.time })
          p (chain ps p) := by
  unfold MarkLive
  rw [hp]

/-- The `MarkLive` step preserves the closed-form invariant. -/
theorem Inv_markLive {ps : List Nat} (hc : Coherent ps) {h : List Op}
    {s : LTree} (b : Nat) (hInv : Inv ps h s) :
    Inv ps (h ++ [.live b]) (MarkLive ps s b) := by
  rcases hInv with ⟨htime, hnodes⟩
  refine ⟨by simp [MarkLive, htime], ?_⟩
  intro y
  have hbnotchain : b ∉ chain ps b := not_mem_chain_self hc b
  by_cases hyb : y = b
  · -- the freshly stamped node
    subst hyb
    have hnode : (MarkLive ps s y).nodes y
        = { live := true, anyLive := true, timestamp := s.time } := by
      cases hp : plink ps y with
      | none => rw [MarkLive_nodes_none hp]; exact upd_same _ _ _
      | some p =>
        have hanc : ancSelf ps p = chain ps y := (chain_of_plink hc hp).symm
        have hyp : y ∉ ancSelf ps p := by rw [hanc]; exact hbnotchain
        rw [MarkLive_nodes_some hp,
          setAnyLive_frame hc (chain ps p) p rfl _ y hyp, upd_same]
    have hrefresh : refreshT ps (h ++ [.live y]) y = h.length + 1 := by
      unfold refreshT
      rw [evLast_append]
      simp [refreshEv, Op.tgt]
    have hts : tsSpec ps (h ++ [.live y]) y = h.length + 1 := by
      unfold tsSpec
      rw [hrefresh]
      have hLE : evLastLE (onAncEv ps y) (h ++ [.live y]) (h.length + 1)
          = evLast (onAncEv ps y) (h ++ [.live y]) := by
        rw [evLast_eq_LE]
        simp
      rw [hLE, evLast_append]
      simp [onAncEv, Op.tgt, ancSelf]
    have halive : evLast (aliveEv ps y) (h ++ [.live y]) = h.length + 1 := by
      rw [evLast_append]
      simp [aliveEv, Op.isL, Op.tgt, ancSelf]
    have hdead : evLast (deadEv y) (h ++ [.live y]) = evLast (deadEv y) h := by
      rw [evLast_append]
      simp [deadEv, Op.isL]
    refine ⟨?_, ?_, ?_⟩
    · simp [hnode, hts, htime]
    · simp [hnode, liveSpec, hts, kindAt_append_top, Op.isL]
    · simp only [hnode, anySpec, halive, hdead]
      have := evLast_le (deadEv y) h
      simp
      omega
  · by_cases hmem : y ∈ chain ps b
    · -- a strict ancestor of the marked node: fixed by the walk
      cases hp : plink ps b with
      | none =>
        rw [chain_of_plink_none hc hp] at hmem
        exact absurd hmem (List.not_mem_nil y)
      | some p =>
        have hanc : ancSelf ps p = chain ps b := (chain_of_plink hc hp).symm
        have hyp : y ∈ ancSelf ps p := by rw [hanc]; exact hmem
        have hnotanc : b ∉ ancSelf ps y := not_anc_of_mem_chain hc hmem
        have hpre : ∀ z ∈ ancSelf ps p,
            ((upd s.nodes b
              { live := true, anyLive := true, timestamp := s.time }) z).timestamp
                = tsSpec ps h z ∧
            ((upd s.nodes b
              { live := true, anyLive := true, timestamp := s.time }) z).live
                = liveSpec ps h z := by
          intro z hz
          have hzb : z ≠ b := by
            intro hzb
            rw [hanc] at hz
            exact hbnotchain (hzb ▸ hz)
          rw [upd_other _ _ hzb]
          exact ⟨(hnodes z).1, (hnodes z).2.1⟩
        have hwalk := setAnyLive_spec hc h (chain ps p) p rfl _ hpre y hyp
        have hnode : (MarkLive ps s b).nodes y
            = setAnyLive
                (upd s.nodes b { live := true, anyLive := true, timestamp := s.time })
                p (chain ps p) y := by
          rw [MarkLive_nodes_some hp]
        have hontail : onAncEv ps y (.live b) = false := by
          simp [onAncEv, Op.tgt, hnotanc]
        have hrefresh : refreshT ps (h ++ [.live b]) y = h.length + 1 := by
          unfold refreshT
          rw [evLast_append]
          simp [refreshEv, Op.tgt, Op.isL, hmem]
        have hts : tsSpec ps (h ++ [.live b]) y = lastT ps h y := by
          unfold tsSpec
          rw [hrefresh]
          have hLE : evLastLE (onAncEv ps y) (h ++ [.live b]) (h.length + 1)
              = evLast (onAncEv ps y) (h ++ [.live b]) := by
            rw [evLast_eq_LE]
            simp
          rw [hLE, evLast_append, hontail]
          simp [lastT]
        have halive : evLast (aliveEv ps y) (h ++ [.live b]) = h.length + 1 := by
          rw [evLast_append]
          have : y ∈ ancSelf ps b := List.mem_cons_of_mem b hmem
          simp [aliveEv, Op.isL, Op.tgt, this]
        have hdead : evLast (deadEv y) (h ++ [.live b])
            = evLast (deadEv y) h := by
          rw [evLast_append]
          simp [deadEv, Op.isL]
        refine ⟨?_, ?_, ?_⟩
        · rw [hnode, hwalk.1, hts]
        · rw [hnode, hwalk.2.1]
          simp only [liveSpec, hts]
          by_cases hz : 0 < lastT ps h y
          · have hle : lastT ps h y ≤ h.length := evLast_le _ h
            rw [kindAt_append_le h _ hz hle]
          · simp [Nat.le_zero.mp (Nat.not_lt.mp hz)]
        · rw [hnode, hwalk.2.2]
          simp only [anySpec, halive, hdead]
          have := evLast_le (deadEv y) h
          simp
          omega
    · -- unrelated node: untouched, all quantities unchanged
      have hnotanc : y ∉ ancSelf ps b := by
        intro hmem2
        rcases List.mem_cons.mp hmem2 with h1 | h1
        · exact hyb h1
        · exact hmem h1
      have hnode : (MarkLive ps s b).nodes y = s.nodes y := by
        cases hp : plink ps b with
        | none => rw [MarkLive_nodes_none hp]; exact upd_other _ _ hyb
        | some p =>
          have hanc : ancSelf ps p = chain ps b := (chain_of_plink hc hp).symm
          have hyp : y ∉ ancSelf ps p := by
            rw [hanc]
            intro hcon
            exact hmem hcon
          rw [MarkLive_nodes_some hp,
            setAnyLive_frame hc (chain ps p) p rfl _ y hyp]
          exact upd_other _ _ hyb
      have hre : refreshEv ps y (.live b) = false := by
        simp only [refreshEv, Op.tgt, Op.isL, Bool.true_and]
        have h1 : decide (b = y) = false := by
          simp [Ne.symm hyb]
        have h2 : decide (y ∈ chain ps b) = false := by
          simp [hmem]
        rw [h1, h2]
        rfl
      have hrefresh : refreshT ps (h ++ [.live b]) y = refreshT ps h y := by
        unfold refreshT
        rw [evLast_append, hre]
        simp
      have hts : tsSpec ps (h ++ [.live b]) y = tsSpec ps h y := by
        unfold tsSpec
        rw [hrefresh]
        exact evLastLE_append _ h _ (evLast_le _ h)
      have halive : evLast (aliveEv ps y) (h ++ [.live b])
          = evLast (aliveEv ps y) h := by
        rw [evLast_append]
        simp [aliveEv, Op.isL, Op.tgt, hnotanc]
      have hdead : evLast (deadEv y) (h ++ [.live b])
          = evLast (deadEv y) h := by
        rw [evLast_append]
        simp [deadEv, Op.isL]
      rcases hnodes y with ⟨h1, h2, h3⟩
      refine ⟨?_, ?_, ?_⟩
      · rw [hnode, h1, hts]
      · rw [hnode, h2, liveSpec_append_of_ts_eq hts]
      · rw [hnode, h3]
        simp only [anySpec, halive, hdead]

/-- The closed forms hold along any history from the fresh tree. -/
theorem Inv_applyOps {ps : List Nat} (hc : Coherent ps) (h : List Op) :
    Inv ps h (applyOps ps newTree h) := by
  induction h using List.reverseRecOn with
  | nil =>
    refine ⟨rfl, fun y => ⟨rfl, rfl, rfl⟩⟩
  | append_singleton h op ih =>
    rw [applyOps_append]
    cases op with
    | live b => exact Inv_markLive hc b ih
    | dead b => exact Inv_markDead b ih

/-! ### Evaluating the `IsLive` walk -/

/-- If nothing ahead has a strictly newer timestamp, the walk keeps its
current answer. -/
theorem isLiveWalk_stay (nodes : Nat → LNode) :
    ∀ R cur live, (∀ p ∈ R, (nodes p).timestamp ≤ (nodes cur).timestamp) →
      isLiveWalk nodes cur live R = live := by
  intro R
  induction R with
  | nil => intro cur live hle; rfl
  | cons p rest ih =>
    intro cur live hle
    have hp := hle p (List.mem_cons_self _ _)
    simp only [isLiveWalk]
    rw [if_neg (by omega)]
    exact ih cur live (fun q hq => hle q (List.mem_cons_of_mem p hq))

/-- The walk switches to the first node that strictly dominates everything
before it. -/
theorem isLiveWalk_switch (nodes : Nat → LNode) :
    ∀ R1 cur live z R2,
      (∀ q ∈ R1, (nodes q).timestamp < (nodes z).timestamp) →
      (nodes cur).timestamp < (nodes z).timestamp →
      isLiveWalk nodes cur live (R1 ++ z :: R2)
        = isLiveWalk nodes z (nodes z).live R2 := by
  intro R1
  induction R1 with
  | nil =>
    intro cur live z R2 hq hcur
    simp only [List.nil_append, isLiveWalk]
    rw [if_pos (by omega)]
  | cons q R1 ih =>
    intro cur live z R2 hq hcur
    simp only [List.cons_append, isLiveWalk]
    split
    · exact ih q (nodes q).live z R2
        (fun w hw => hq w (List.mem_cons_of_mem q hw))
        (hq q (List.mem_cons_self _ _))
    · exact ih cur live z R2
        (fun w hw => hq w (List.mem_cons_of_mem q hw)) hcur

/-- Splitting a chain at the first node whose timestamp reaches the bound
`t` (when some member reaches it and all members stay at or below it). -/
theorem chain_split_first {ps : List Nat} (hc : Coherent ps)
    (f : Nat → Nat) (t : Nat) :
    ∀ a b, b ∈ chain ps a → f b = t → (∀ q ∈ chain ps a, f q ≤ t) →
      ∃ R1 z, chain ps a = R1 ++ z :: chain ps z ∧ f z = t ∧
        ∀ q ∈ R1, f q < t := by
  suffices H : ∀ n a b, (chain ps a).length ≤ n → b ∈ chain ps a → f b = t →
      (∀ q ∈ chain ps a, f q ≤ t) →
      ∃ R1 z, chain ps a = R1 ++ z :: chain ps z ∧ f z = t ∧
        ∀ q ∈ R1, f q < t by
    intro a b hb hfb hle
    exact H (chain ps a).length a b le_rfl hb hfb hle
  intro n
  induction n with
  | zero =>
    intro a b hlen hb hfb hle
    rw [List.length_eq_zero.mp (Nat.le_zero.mp hlen)] at hb
    exact absurd hb (List.not_mem_nil b)
  | succ n ih =>
    intro a b hlen hb hfb hle
    cases hp : plink ps a with
    | none =>
      rw [chain_of_plink_none hc hp] at hb
      exact absurd hb (List.not_mem_nil b)
    | some p =>
      have hch := chain_of_plink hc hp
      by_cases hfp : f p = t
      · exact ⟨[], p, by simpa using hch, hfp, by simp⟩
      · have hplt : f p < t := by
          have := hle p (by rw [hch]; exact List.mem_cons_self _ _)
          omega
        have hbp : b ∈ chain ps p := by
          rw [hch] at hb
          rcases List.mem_cons.mp hb with h1 | h1
          · exact absurd (h1 ▸ hfb) hfp
          · exact h1
        have hlen2 : (chain ps p).length ≤ n := by
          have := congrArg List.length hch
          simp at this
          omega
        have hle2 : ∀ q ∈ chain ps p, f q ≤ t := by
          intro q hq
          exact hle q (by rw [hch]; exact List.mem_cons_of_mem p hq)
        rcases ih p b hlen2 hbp hfb hle2 with ⟨R1, z, hsplit, hfz, hR1⟩
        refine ⟨p :: R1, z, ?_, hfz, ?_⟩
        · rw [hch, hsplit]
          rfl
        · intro q hq
          rcases List.mem_cons.mp hq with h1 | h1
          · exact h1 ▸ hplt
          · exact hR1 q h1

/-- Closed form of the answer of `IsLive` after history `h`. -/
def Fsem (ps : List Nat) (h : List Op) (a : Nat) : Bool :=
  if lastT ps h a ≤ refreshT ps h a then anySpec ps h a
  else kindAt h (lastT ps h a)

/-- `IsLive` on the tree reached by history `h` computes `Fsem`. -/
theorem IsLive_eq_Fsem {ps : List Nat} (hc : Coherent ps) (h : List Op)
    (a : Nat) : IsLive ps (applyOps ps newTree h) a = Fsem ps h a := by
  rcases Inv_applyOps hc h with ⟨htime, hnodes⟩
  have hts : ∀ y, ((applyOps ps newTree h).nodes y).timestamp = tsSpec ps h y :=
    fun y => (hnodes y).1
  have hlive : ∀ y, ((applyOps ps newTree h).nodes y).live = liveSpec ps h y :=
    fun y => (hnodes y).2.1
  have hany : ∀ y, ((applyOps ps newTree h).nodes y).anyLive = anySpec ps h y :=
    fun y => (hnodes y).2.2
  unfold IsLive Fsem
  by_cases hcase : lastT ps h a ≤ refreshT ps h a
  · -- fresh node: the walk never switches, the answer is `anyLive`
    have htsa : tsSpec ps h a = lastT ps h a := tsSpec_eq_lastT_of_le hcase
    rw [if_pos hcase, isLiveWalk_stay _ _ _ _ ?stay]
    case stay =>
      intro p hp
      rw [hts p, hts a, htsa]
      exact le_trans (tsSpec_le_lastT ps h p)
        (lastT_le_of_anc hc h (List.mem_cons_of_mem a hp))
    exact hany a
  · -- stale node: the walk switches to the first holder of `lastT a`
    rw [if_neg hcase]
    have hpos : 0 < lastT ps h a := by
      have := Nat.zero_le (refreshT ps h a)
      omega
    have hk := lastIdx_kind (p := fun i => onAncEv ps a (h.getD i (.dead 0)))
      (n := h.length) hpos
    have hlen : lastT ps h a ≤ h.length := evLast_le _ h
    have hb0 : onAncEv ps a (h.getD (lastT ps h a - 1) (.dead 0)) = true := hk
    have hbanc : (h.getD (lastT ps h a - 1) (.dead 0)).tgt ∈ ancSelf ps a := by
      simp only [onAncEv, decide_eq_true_eq] at hb0
      exact hb0
    have hbne : (h.getD (lastT ps h a - 1) (.dead 0)).tgt ≠ a := by
      intro heq
      apply hcase
      have hrev : refreshEv ps a (h.getD (lastT ps h a - 1) (.dead 0)) = true := by
        unfold refreshEv
        rw [heq]
        simp
      have := lastIdx_ge (p := fun i => refreshEv ps a (h.getD i (.dead 0)))
        (i := lastT ps h a - 1) (n := h.length) hrev (by omega)
      unfold refreshT evLast
      omega
    have hbchain : (h.getD (lastT ps h a - 1) (.dead 0)).tgt ∈ chain ps a := by
      rcases List.mem_cons.mp hbanc with h1 | h1
      · exact absurd h1 hbne
      · exact h1
    have hbts : tsSpec ps h (h.getD (lastT ps h a - 1) (.dead 0)).tgt
        = lastT ps h a := by
      apply Nat.le_antisymm
      · exact le_trans (tsSpec_le_lastT ps h _)
          (lastT_le_of_anc hc h (List.mem_cons_of_mem a hbchain))
      · have hre : refreshEv ps (h.getD (lastT ps h a - 1) (.dead 0)).tgt
            (h.getD (lastT ps h a - 1) (.dead 0)) = true := by
          simp [refreshEv]
        have hrge := lastIdx_ge
          (p := fun i => refreshEv ps (h.getD (lastT ps h a - 1) (.dead 0)).tgt
            (h.getD i (.dead 0)))
          (i := lastT ps h a - 1) (n := h.length) hre (by omega)
        have honanc : onAncEv ps (h.getD (lastT ps h a - 1) (.dead 0)).tgt
            (h.getD (lastT ps h a - 1) (.dead 0)) = true := by
          simp [onAncEv, ancSelf]
        have hge2 := lastIdx_ge
          (p := fun i => onAncEv ps (h.getD (lastT ps h a - 1) (.dead 0)).tgt
            (h.getD i (.dead 0)))
          (i := lastT ps h a - 1)
          (n := refreshT ps h (h.getD (lastT ps h a - 1) (.dead 0)).tgt)
          honanc (by unfold refreshT evLast; omega)
        unfold tsSpec evLastLE
        omega
    have hbound : ∀ q ∈ chain ps a, tsSpec ps h q ≤ lastT ps h a := by
      intro q hq
      exact le_trans (tsSpec_le_lastT ps h q)
        (lastT_le_of_anc hc h (List.mem_cons_of_mem a hq))
    rcases chain_split_first hc (fun y => tsSpec ps h y) (lastT ps h a) a _
      hbchain hbts hbound with ⟨R1, z, hsplit, hfz, hR1⟩
    have hzchain : z ∈ chain ps a := by
      rw [hsplit]
      exact List.mem_append_right R1 (List.mem_cons_self _ _)
    rw [hsplit, isLiveWalk_switch _ _ _ _ _ _ ?small ?cur]
    case small =>
      intro q hq
      rw [hts q, hts z, hfz]
      exact hR1 q hq
    case cur =>
      rw [hts a, hts z, hfz]
      have := tsSpec_le_refreshT ps h a
      omega
    rw [isLiveWalk_stay _ _ _ _ ?tail]
    case tail =>
      intro p hp
      rw [hts p, hts z, hfz]
      apply le_trans (tsSpec_le_lastT ps h p)
      apply lastT_le_of_anc hc h
      apply List.mem_cons_of_mem
      rw [hsplit]
      exact List.mem_append_right R1 (List.mem_cons_of_mem z hp)
    rw [hlive z]
    unfold liveSpec
    rw [hfz]
    simp [hpos]

/-- Appending a `MarkDead` to the history: the closed-form answer becomes
false exactly on the dead node's subtree. -/
theorem Fsem_append_dead {ps : List Nat} (h : List Op)
    (b a : Nat) :
    Fsem ps (h ++ [.dead b]) a
      = if b ∈ ancSelf ps a then false else Fsem ps h a := by
  by_cases hmem : b ∈ ancSelf ps a
  · rw [if_pos hmem]
    have honanc : onAncEv ps a (.dead b) = true := by
      simp [onAncEv, Op.tgt, hmem]
    have hlastT : lastT ps (h ++ [.dead b]) a = h.length + 1 := by
      unfold lastT
      rw [evLast_append, honanc]
      simp
    by_cases hba : b = a
    · subst hba
      have hrefresh : refreshT ps (h ++ [.dead b]) b = h.length + 1 := by
        unfold refreshT
        rw [evLast_append]
        simp [refreshEv, Op.tgt]
      have hdead : evLast (deadEv b) (h ++ [.dead b]) = h.length + 1 := by
        rw [evLast_append]
        simp [deadEv, Op.isL, Op.tgt]
      have halive : evLast (aliveEv ps b) (h ++ [.dead b])
          = evLast (aliveEv ps b) h := by
        rw [evLast_append]
        simp [aliveEv, Op.isL]
      unfold Fsem
      rw [hlastT, hrefresh, if_pos le_rfl]
      simp only [anySpec, hdead, halive]
      have := evLast_le (aliveEv ps b) h
      simp
      omega
    · have hchain : b ∈ chain ps a := by
        rcases List.mem_cons.mp hmem with h1 | h1
        · exact absurd h1.symm (fun hba2 => hba hba2.symm)
        · exact h1
      have hrefresh : refreshT ps (h ++ [.dead b]) a = refreshT ps h a := by
        unfold refreshT
        rw [evLast_append]
        have : refreshEv ps a (.dead b) = false := by
          simp only [refreshEv, Op.tgt, Op.isL, Bool.false_and, Bool.or_false]
          simp [hba]
        rw [this]
        simp
      unfold Fsem
      rw [hlastT, hrefresh]
      rw [if_neg (by have := evLast_le (refreshEv ps a) h; unfold refreshT; omega)]
      rw [kindAt_append_top]
      rfl
  · have honanc : onAncEv ps a (.dead b) = false := by
      simp [onAncEv, Op.tgt, hmem]
    have hba : ¬(b = a) := fun hba => hmem (hba ▸ List.mem_cons_self _ _)
    have hlastT : lastT ps (h ++ [.dead b]) a = lastT ps h a := by
      unfold lastT
      rw [evLast_append, honanc]
      simp
    have hrefresh : refreshT ps (h ++ [.dead b]) a = refreshT ps h a := by
      unfold refreshT
      rw [evLast_append]
      have : refreshEv ps a (.dead b) = false := by
        simp only [refreshEv, Op.tgt, Op.isL, Bool.false_and, Bool.or_false]
        simp [hba]
      rw [this]
      simp
    have halive : evLast (aliveEv ps a) (h ++ [.dead b])
        = evLast (aliveEv ps a) h := by
      rw [evLast_append]
      simp [aliveEv, Op.isL]
    have hdead : evLast (deadEv a) (h ++ [.dead b]) = evLast (deadEv a) h := by
      rw [evLast_append]
      have : deadEv a (.dead b) = false := by
        simp [deadEv, Op.isL, Op.tgt, hba]
      rw [this]
      simp
    rw [if_neg hmem]
    unfold Fsem
    rw [hlastT, hrefresh]
    by_cases hbr : lastT ps h a ≤ refreshT ps h a
    · rw [if_pos hbr, if_pos hbr]
      simp only [anySpec, halive, hdead]
    · rw [if_neg hbr, if_neg hbr]
      have hpos : 0 < lastT ps h a := by
        have := Nat.zero_le (refreshT ps h a)
        omega
      exact kindAt_append_le h _ hpos (evLast_le _ h)

/-- Appending a `MarkLive` to the history: the closed-form answer becomes
true exactly on the marked node's ancestors and descendants. -/
theorem Fsem_append_live {ps : List Nat} (hc : Coherent ps) (h : List Op)
    (b a : Nat) :
    Fsem ps (h ++ [.live b]) a
      = if b ∈ ancSelf ps a ∨ a ∈ ancSelf ps b then true else Fsem ps h a := by
  by_cases hba : b = a
  · subst hba
    have hrefresh : refreshT ps (h ++ [.live b]) b = h.length + 1 := by
      unfold refreshT
      rw [evLast_append]
      simp [refreshEv, Op.tgt]
    have hlastT : lastT ps (h ++ [.live b]) b = h.length + 1 := by
      unfold lastT
      rw [evLast_append]
      simp [onAncEv, Op.tgt, ancSelf]
    have halive : evLast (aliveEv ps b) (h ++ [.live b]) = h.length + 1 := by
      rw [evLast_append]
      simp [aliveEv, Op.isL, Op.tgt, ancSelf]
    have hdead : evLast (deadEv b) (h ++ [.live b]) = evLast (deadEv b) h := by
      rw [evLast_append]
      simp [deadEv, Op.isL]
    rw [if_pos (Or.inl (show b ∈ ancSelf ps b from List.mem_cons_self _ _))]
    unfold Fsem
    rw [hlastT, hrefresh, if_pos le_rfl]
    simp only [anySpec, hdead, halive]
    have := evLast_le (deadEv b) h
    simp
    omega
  · by_cases hmem : b ∈ chain ps a
    · -- b is a strict ancestor of a
      have hnotanc : a ∉ ancSelf ps b := not_anc_of_mem_chain hc hmem
      have hlastT : lastT ps (h ++ [.live b]) a = h.length + 1 := by
        unfold lastT
        rw [evLast_append]
        simp [onAncEv, Op.tgt, ancSelf, hmem]
      have hrefresh : refreshT ps (h ++ [.live b]) a = refreshT ps h a := by
        unfold refreshT
        rw [evLast_append]
        have hnc : a ∉ chain ps b := fun hcon =>
          hnotanc (List.mem_cons_of_mem b hcon)
        have : refreshEv ps a (.live b) = false := by
          simp only [refreshEv, Op.tgt, Op.isL, Bool.true_and]
          simp [hba, hnc]
        rw [this]
        simp
      rw [if_pos (Or.inl (show b ∈ ancSelf ps a from List.mem_cons_of_mem a hmem))]
      unfold Fsem
      rw [hlastT, hrefresh]
      rw [if_neg (by have := evLast_le (refreshEv ps a) h; unfold refreshT; omega)]
      rw [kindAt_append_top]
      rfl
    · by_cases hmem2 : a ∈ ancSelf ps b
      · -- a is a strict ancestor of b
        have hbnotanc : b ∉ ancSelf ps a := by
          intro hcon
          rcases List.mem_cons.mp hcon with h1 | h1
          · exact hba h1
          · exact hmem h1
        have hachain : a ∈ chain ps b := by
          rcases List.mem_cons.mp hmem2 with h1 | h1
          · exact absurd h1.symm hba
          · exact h1
        have hlastT : lastT ps (h ++ [.live b]) a = lastT ps h a := by
          unfold lastT
          rw [evLast_append]
          have : onAncEv ps a (.live b) = false := by
            simp [onAncEv, Op.tgt, hbnotanc]
          rw [this]
          simp
        have hrefresh : refreshT ps (h ++ [.live b]) a = h.length + 1 := by
          unfold refreshT
          rw [evLast_append]
          simp [refreshEv, Op.tgt, Op.isL, hachain]
        have halive : evLast (aliveEv ps a) (h ++ [.live b])
            = h.length + 1 := by
          rw [evLast_append]
          simp [aliveEv, Op.isL, Op.tgt, hmem2]
        have hdead : evLast (deadEv a) (h ++ [.live b])
            = evLast (deadEv a) h := by
          rw [evLast_append]
          simp [deadEv, Op.isL]
        rw [if_pos (Or.inr hmem2)]
        unfold Fsem
        rw [hlastT, hrefresh]
        rw [if_pos (by have := evLast_le (onAncEv ps a) h; unfold lastT; omega)]
        simp only [anySpec, hdead, halive]
        have := evLast_le (deadEv a) h
        simp
        omega
      · -- unrelated nodes
        have hbnotanc : b ∉ ancSelf ps a := by
          intro hcon
          rcases List.mem_cons.mp hcon with h1 | h1
          · exact hba h1
          · exact hmem h1
        have hlastT : lastT ps (h ++ [.live b]) a = lastT ps h a := by
          unfold lastT
          rw [evLast_append]
          have : onAncEv ps a (.live b) = false := by
            simp [onAncEv, Op.tgt, hbnotanc]
          rw [this]
          simp
        have hrefresh : refreshT ps (h ++ [.live b]) a = refreshT ps h a := by
          unfold refreshT
          rw [evLast_append]
          have hnc : a ∉ chain ps b := fun hcon =>
            hmem2 (List.mem_cons_of_mem b hcon)
          have : refreshEv ps a (.live b) = false := by
            simp only [refreshEv, Op.tgt, Op.isL, Bool.true_and]
            simp [hba, hnc]
          rw [this]
          simp
        have halive : evLast (aliveEv ps a) (h ++ [.live b])
            = evLast (aliveEv ps a) h := by
          rw [evLast_append]
          have : aliveEv ps a (.live b) = false := by
            simp [aliveEv, Op.isL, Op.tgt, hmem2]
          rw [this]
          simp
        have hdead : evLast (deadEv a) (h ++ [.live b])
            = evLast (deadEv a) h := by
          rw [evLast_append]
          simp [deadEv, Op.isL]
        have hnrel : ¬(b ∈ ancSelf ps a ∨ a ∈ ancSelf ps b) := by
          rintro (hcon | hcon)
          · exact hbnotanc hcon
          · exact hmem2 hcon
        rw [if_neg hnrel]
        unfold Fsem
        rw [hlastT, hrefresh]
        by_cases hbr : lastT ps h a ≤ refreshT ps h a
        · rw [if_pos hbr, if_pos hbr]
          simp only [anySpec, halive, hdead]
        · rw [if_neg hbr, if_neg hbr]
          have hpos : 0 < lastT ps h a := by
            have := Nat.zero_le (refreshT ps h a)
            omega
          exact kindAt_append_le h _ hpos (evLast_le _ h)

/-- The closed form equals the simple reference semantics. -/
theorem Gsem_eq_Fsem {ps : List Nat} (hc : Coherent ps) :
    ∀ h a, Gsem ps h a = Fsem ps h a := by
  intro h
  induction h using List.reverseRecOn with
  | nil =>
    intro a
    rfl
  | append_singleton h op ih =>
    intro a
    rw [Gsem_append]
    cases op with
    | live b =>
      rw [Fsem_append_live hc]
      simp only [Gstep, ih a]
    | dead b =>
      rw [Fsem_append_dead]
      simp only [Gstep, ih a]

/-- Exact characterization: `IsLive` on the tree built by any op history
equals the simple mark-subtree semantics `Gsem`. -/
theorem IsLive_eq_Gsem {ps : List Nat} (hc : Coherent ps) (h : List Op)
    (a : Nat) : IsLive ps (applyOps ps newTree h) a = Gsem ps h a :=
  (IsLive_eq_Fsem hc h a).trans (Gsem_eq_Fsem hc h a).symm

/-- The naive oracle implies the reference semantics: every naively live
subtree member forces a true answer. -/
theorem oracleLive_imp_Gsem {ps : List Nat} (hc : Coherent ps) (n : Nat) :
    ∀ h a, oracleLive ps n h a = true → Gsem ps h a = true := by
  intro h
  induction h using List.reverseRecOn with
  | nil =>
    intro a hor
    simp [oracleLive, naiveLive] at hor
  | append_singleton h op ih =>
    intro a hor
    simp only [oracleLive, List.any_eq_true, List.mem_range,
      Bool.and_eq_true, decide_eq_true_eq] at hor
    rcases hor with ⟨x, hx, hax, hnl⟩
    rw [naiveLive_append] at hnl
    rw [Gsem_append]
    cases op with
    | live b =>
      simp only [Op.tgt] at hnl
      show (if b ∈ ancSelf ps a ∨ a ∈ ancSelf ps b then true else Gsem ps h a)
        = true
      by_cases hmem : b ∈ ancSelf ps x
      · rcases anc_total hc x a b hax hmem with hrel | hrel
        · rw [if_pos (Or.inr hrel)]
        · rw [if_pos (Or.inl hrel)]
      · rw [if_neg hmem] at hnl
        have hG := ih a (by
          simp only [oracleLive, List.any_eq_true, List.mem_range,
            Bool.and_eq_true, decide_eq_true_eq]
          exact ⟨x, hx, hax, hnl⟩)
        rw [hG]
        split <;> rfl
    | dead b =>
      simp only [Op.tgt] at hnl
      show (if b ∈ ancSelf ps a then false else Gsem ps h a) = true
      by_cases hmem : b ∈ ancSelf ps x
      · rw [if_pos hmem] at hnl
        exact absurd hnl (by simp [Op.isL])
      · rw [if_neg hmem] at hnl
        have hG := ih a (by
          simp only [oracleLive, List.any_eq_true, List.mem_range,
            Bool.and_eq_true, decide_eq_true_eq]
          exact ⟨x, hx, hax, hnl⟩)
        have hba : b ∉ ancSelf ps a := by
          intro hcon
          exact hmem (ancSelf_trans hc hax hcon)
        rw [if_neg hba]
        exact hG

/-- C2 counterexample: the claimed equivalence between `IsLive` and the
naive oracle fails.  On the parent map `[0,0,1]` (node 2 a child of node 1)
after `MarkLive 2; MarkDead 2`, `IsLive 1` answers true (node 1's `anyLive`
bit is stale, since `MarkDead` does not touch ancestors), while no address
in the subtree of 1 is naively live. -/
theorem livenessTree_oracle_iff_counterexample :
    IsLive [0, 0, 1] (applyOps [0, 0, 1] newTree [.live 2, .dead 2]) 1 = true ∧
    oracleLive [0, 0, 1] 3 [.live 2, .dead 2] 1 = false := by
  constructor
  · rfl
  · rfl

/-- C2 (amended): for every coherent parent forest and every op history
applied to a fresh liveness tree, if some address in the subtree rooted at
`a` is naively live (its most recent affecting mark — on itself or an
ancestor — was a live-mark), then `IsLive a` returns true.  The converse
direction of the original claim is false (see the counterexample): `IsLive`
over-approximates the naive oracle. -/
theorem livenessTree_oracle_sound {ps : List Nat} (hc : Coherent ps)
    (n : Nat) (h : List Op) (a : Nat)
    (hor : oracleLive ps n h a = true) :
    IsLive ps (applyOps ps newTree h) a = true := by
  rw [IsLive_eq_Gsem hc]
  exact oracleLive_imp_Gsem hc n h a hor

/-- Witness for C2 (amended) at a concrete input: parent map `[0,0,1]`,
history `MarkLive 2`, query node 1. -/
theorem livenessTree_oracle_sound_witness :
    Coherent [0, 0, 1] ∧
    oracleLive [0, 0, 1] 3 [.live 2] 1 = true ∧
    IsLive [0, 0, 1] (applyOps [0, 0, 1] newTree [.live 2]) 1 = true :=
  ⟨by decide, by decide,
    livenessTree_oracle_sound (by decide) 3 [.live 2] 1 (by decide)⟩

/-! ### The dead-code-elimination transform

Embedded from `DeadCodeElimination` in
`gapis/atom/transform/dead_code_elimination.go`.  Atoms are identified by
their command ids; the downstream `Writer` receives the ids of the emitted
atoms, in order. -/

/-- `AtomBehaviour` from `dependency_graph.go`. -/
structure AtomBehaviour where
  Reads : List Nat
  Modifies : List Nat
  Writes : List Nat
  Roots : List Nat
  KeepAlive : Bool
  Aborted : Bool
deriving DecidableEq, Repr

/-- The default (zero) behaviour. -/
def AtomBehaviour.empty : AtomBehaviour :=
  { Reads := [], Modifies := [], Writes := [], Roots := [],
    KeepAlive := false, Aborted := false }

/-- The data of a `DependencyGraph` used by the sweep: per-command
behaviours, the global root set (the iteration order of the Go
`map[StateAddress]bool` fixed as a list), and the parent map returned by
`GetHierarchyStateMap`. -/
structure DependencyGraph where
  Behaviours : List AtomBehaviour
  Roots : List Nat
  parents : List Nat
deriving DecidableEq, Repr

/-- Behaviour of command `i` (out-of-range reads return the zero value;
the Go code never exceeds the bounds it is given). -/
def getBeh (g : DependencyGraph) (i : Nat) : AtomBehaviour :=
  g.Behaviours.getD i AtomBehaviour.empty

/-- `DeadCodeElimination` transform state. -/
structure DeadCodeElimination where
  dependencyGraph : DependencyGraph
  requests : List Nat
  lastRequest : Nat
deriving DecidableEq, Repr

/-- `NewDeadCodeElimination`: empty request set; `lastRequest` starts at
the zero value of `atom.ID`. -/
def NewDeadCodeElimination (g : DependencyGraph) : DeadCodeElimination :=
  { dependencyGraph := g, requests := [], lastRequest := 0 }

/-- `Request` adds the id to the set and raises `lastRequest`;
there is no validation. -/
def Request (t : DeadCodeElimination) (id : Nat) : DeadCodeElimination :=
  { t with
    requests := id :: t.requests,
    lastRequest := if id > t.lastRequest then id else t.lastRequest }

/-- `Transform` panics unconditionally; the error value carries the panic
message and no atom is forwarded to the writer. -/
def Transform (t : DeadCodeElimination) (id : Nat) (a : Nat)
    (out : List (Nat × Nat)) : Except String (List (Nat × Nat)) :=
  .error "This transform does not accept input atoms"

/-- The body of the `i`-th iteration of `propagateLiveness`: computes
`isLive[i]` and the updated liveness tree. -/
def sweepStep (g : DependencyGraph) (req : List Nat) (i : Nat)
    (t : LTree) : Bool × LTree :=
  let b := getBeh g i
  if b.Aborted then (b.KeepAlive, t)
  else
    let pr : Bool × LTree :=
      if i ∈ req then
        (true, g.Roots.foldl (fun t r => MarkLive g.parents t r) t)
      else (b.KeepAlive, t)
    let pw : Bool × LTree :=
      b.Writes.foldl (fun p w =>
        if IsLive g.parents p.2 w then (true, MarkDead p.2 w) else p) pr
    let l2 : Bool :=
      b.Modifies.foldl (fun l m => if IsLive g.parents pw.2 m then true else l)
        pw.1
    if l2 then
      (l2, b.Reads.foldl (fun t r => MarkLive g.parents t r)
        (b.Modifies.foldl (fun t m => MarkLive g.parents t m) pw.2))
    else (l2, pw.2)

/-- The descending loop of `propagateLiveness`, from index `i` down to 0;
returns `isLive[0..i]` and the final tree. -/
def sweepDown (g : DependencyGraph) (req : List Nat) :
    Nat → LTree → List Bool × LTree
  | 0, t =>
    ((sweepStep g req 0 t).1 :: [], (sweepStep g req 0 t).2)
  | i + 1, t =>
    ((sweepDown g req i (sweepStep g req (i + 1) t).2).1 ++
       [(sweepStep g req (i + 1) t).1],
     (sweepDown g req i (sweepStep g req (i + 1) t).2).2)

/-- `propagateLiveness`: the `isLive` array for ids `0..lastRequest`. -/
def propagateLiveness (g : DependencyGraph) (req : List Nat)
    (lastRequest : Nat) : List Bool :=
  (sweepDown g req lastRequest newTree).1

/-- `Flush`: run the sweep and emit the ids whose `isLive` bit is set, in
ascending order. -/
def Flush (t : DeadCodeElimination) : List Nat :=
  (List.range
    (propagateLiveness t.dependencyGraph t.requests t.lastRequest).length).filter
    (fun i =>
      (propagateLiveness t.dependencyGraph t.requests t.lastRequest).getD i false)

theorem sweepDown_length (g : DependencyGraph) (req : List Nat) :
    ∀ i t, (sweepDown g req i t).1.length = i + 1 := by
  intro i
  induction i with
  | zero => intro t; rfl
  | succ i ih =>
    intro t
    simp only [sweepDown, List.length_append, ih, List.length_singleton]

/-- If the bool computed at step `q` is `v` whatever the tree, then the
entry at index `q` of the sweep is `v`. -/
theorem sweepDown_getD (g : DependencyGraph) (req : List Nat) {q : Nat}
    {v : Bool} (hstep : ∀ t, (sweepStep g req q t).1 = v) :
    ∀ i t, q ≤ i → (sweepDown g req i t).1.getD q false = v := by
  intro i
  induction i with
  | zero =>
    intro t hq
    have : q = 0 := Nat.le_zero.mp hq
    subst this
    simpa [sweepDown] using hstep t
  | succ i ih =>
    intro t hq
    rcases Nat.le_succ_iff_eq_or_le.mp hq with h1 | h1
    · subst h1
      simp only [sweepDown]
      rw [List.getD_append_right _ _ _ _ (by rw [sweepDown_length])]
      rw [sweepDown_length]
      simpa using hstep _
    · simp only [sweepDown]
      rw [List.getD_append _ _ _ _ (by rw [sweepDown_length]; omega)]
      exact ih _ h1

/-- An aborted command's `isLive` entry is exactly its `keepAlive` flag,
whatever the tree state. -/
theorem sweepStep_aborted (g : DependencyGraph) (req : List Nat) (i : Nat)
    (hab : (getBeh g i).Aborted = true) :
    ∀ t, (sweepStep g req i t).1 = (getBeh g i).KeepAlive := by
  intro t
  unfold sweepStep
  rw [if_pos hab]

/-- A fold that only turns the accumulator true keeps a true accumulator. -/
theorem foldl_or_true {α : Type} (f : α → Bool) :
    ∀ (l : List α), l.foldl (fun acc x => if f x then true else acc) true
      = true := by
  intro l
  induction l with
  | nil => rfl
  | cons x l ih =>
    simp only [List.foldl_cons]
    split <;> exact ih

/-- The writes fold keeps a true liveness bit true. -/
theorem writesFold_true (ps : List Nat) :
    ∀ (ws : List Nat) (t : LTree),
      (ws.foldl (fun (p : Bool × LTree) w =>
        if IsLive ps p.2 w then (true, MarkDead p.2 w) else p) (true, t)).1
      = true := by
  intro ws
  induction ws with
  | nil => intro t; rfl
  | cons w ws ih =>
    intro t
    simp only [List.foldl_cons]
    split
    · exact ih _
    · exact ih _

/-- A requested, non-aborted command's `isLive` entry is true whatever the
tree state. -/
theorem sweepStep_requested (g : DependencyGraph) (req : List Nat) (i : Nat)
    (hreq : i ∈ req) (hab : (getBeh g i).Aborted = false) :
    ∀ t, (sweepStep g req i t).1 = true := by
  intro t
  unfold sweepStep
  rw [if_neg (by rw [hab]; exact Bool.false_ne_true)]
  simp only [if_pos hreq]
  have hw := writesFold_true g.parents (getBeh g i).Writes
    (g.Roots.foldl (fun t r => MarkLive g.parents t r) t)
  rw [hw]
  rw [foldl_or_true]
  rfl

/-- On a fresh tree every query answers false. -/
theorem IsLive_newTree (ps : List Nat) (a : Nat) :
    IsLive ps newTree a = false := by
  unfold IsLive
  rw [isLiveWalk_stay]
  · rfl
  · intro p hp
    exact le_rfl

/-- The writes fold does nothing on a fresh tree. -/
theorem writesFold_fresh (ps : List Nat) :
    ∀ (ws : List Nat) (l : Bool),
      (ws.foldl (fun (p : Bool × LTree) w =>
        if IsLive ps p.2 w then (true, MarkDead p.2 w) else p) (l, newTree))
      = (l, newTree) := by
  intro ws
  induction ws with
  | nil => intro l; rfl
  | cons w ws ih =>
    intro l
    simp only [List.foldl_cons]
    have hstep : (if IsLive ps newTree w = true
        then (true, MarkDead newTree w) else ((l, newTree) : Bool × LTree))
        = (l, newTree) := by
      rw [IsLive_newTree]
      rfl
    rw [hstep]
    exact ih l

/-- The modifies check does nothing on a fresh tree. -/
theorem modifiesFold_fresh (ps : List Nat) :
    ∀ (ms : List Nat) (l : Bool),
      ms.foldl (fun l m => if IsLive ps newTree m then true else l) l = l := by
  intro ms
  induction ms with
  | nil => intro l; rfl
  | cons m ms ih =>
    intro l
    simp only [List.foldl_cons]
    have hstep : (if IsLive ps newTree m = true then true else l) = l := by
      rw [IsLive_newTree]
      rfl
    rw [hstep]
    exact ih l

/-- With no requests, the step at id 0 on the fresh tree reduces to the
`keepAlive` flag. -/
theorem sweepStep_empty_fresh (g : DependencyGraph) :
    (sweepStep g [] 0 newTree).1 = (getBeh g 0).KeepAlive := by
  unfold sweepStep
  by_cases hab : (getBeh g 0).Aborted
  · rw [if_pos hab]
  · rw [if_neg hab]
    simp only [List.not_mem_nil, if_false]
    rw [writesFold_fresh, modifiesFold_fresh]
    split <;> rfl

/-- A one-command graph whose only behaviour is aborted. -/
def abortedGraph : DependencyGraph :=
  { Behaviours := [{ AtomBehaviour.empty with Aborted := true }],
    Roots := [], parents := [0] }

/-- A one-command graph whose only behaviour is the zero behaviour. -/
def plainGraph : DependencyGraph :=
  { Behaviours := [AtomBehaviour.empty], Roots := [], parents := [0] }

/-- A two-command graph: command 0 aborted with `keepAlive`, command 1
plain. -/
def abortedKeepAliveGraph : DependencyGraph :=
  { Behaviours :=
      [{ AtomBehaviour.empty with KeepAlive := true, Aborted := true },
       AtomBehaviour.empty],
    Roots := [], parents := [0] }

/-- A two-command graph: command 0 plain, command 1 `keepAlive`. -/
def lateKeepAliveGraph : DependencyGraph :=
  { Behaviours := [AtomBehaviour.empty,
                   { AtomBehaviour.empty with KeepAlive := true }],
    Roots := [], parents := [0] }

/-- A one-command graph whose only behaviour is `keepAlive`. -/
def keepAliveGraph : DependencyGraph :=
  { Behaviours := [{ AtomBehaviour.empty with KeepAlive := true }],
    Roots := [], parents := [0] }

/-- Scenario graph: three commands that each write a distinct address
(1, 2, 3); no roots. -/
def scenarioGraphS1 : DependencyGraph :=
  { Behaviours := [{ AtomBehaviour.empty with Writes := [1] },
                   { AtomBehaviour.empty with Writes := [2] },
                   { AtomBehaviour.empty with Writes := [3] }],
    Roots := [], parents := [0, 0, 0, 0] }

/-- Sanity check of the sweep embedding on an independent-writes capture:
requesting only command 2 keeps only command 2 (the writes of commands 0
and 1 are never read). -/
theorem sweep_independent_writes :
    propagateLiveness scenarioGraphS1 [2] 2 = [false, false, true] := by
  decide

/-- Scenario graph: a read/write chain `w(1); r(1),w(2); r(2),w(3)` with
address 3 a root. -/
def scenarioGraphS2 : DependencyGraph :=
  { Behaviours := [{ AtomBehaviour.empty with Writes := [1] },
                   { AtomBehaviour.empty with Reads := [1], Writes := [2] },
                   { AtomBehaviour.empty with Reads := [2], Writes := [3] }],
    Roots := [3], parents := [0, 0, 0, 0] }

/-- Sanity check of the sweep embedding on a dependency chain: requesting
command 2 marks the root live, which makes command 2's write live, whose
read keeps command 1 live, whose read keeps command 0 live. -/
theorem sweep_chain_all_live :
    propagateLiveness scenarioGraphS2 [2] 2 = [true, true, true] := by
  decide

/-- Scenario graph: command 1 overwrites address 1 written by command 0;
command 2 reads it. -/
def scenarioGraphS3 : DependencyGraph :=
  { Behaviours := [{ AtomBehaviour.empty with Writes := [1] },
                   { AtomBehaviour.empty with Writes := [1] },
                   { AtomBehaviour.empty with Reads := [1] }],
    Roots := [], parents := [0, 0] }

/-- Sanity check of the sweep embedding: a full overwrite kills the earlier
writer — command 1's write satisfies command 2's read and marks the address
dead, so command 0 is eliminated. -/
theorem sweep_overwrite_kills :
    propagateLiveness scenarioGraphS3 [2] 2 = [false, true, true] := by
  decide

/-- Scenario graph: like `scenarioGraphS3` but command 1 only *modifies*
address 1 (a read-modify-write). -/
def scenarioGraphS4 : DependencyGraph :=
  { Behaviours := [{ AtomBehaviour.empty with Writes := [1] },
                   { AtomBehaviour.empty with Modifies := [1] },
                   { AtomBehaviour.empty with Reads := [1] }],
    Roots := [], parents := [0, 0] }

/-- Sanity check of the sweep embedding: a modify does not kill the earlier
writer — the address stays live through command 1, so command 0 is kept
too. -/
theorem sweep_modify_keeps :
    propagateLiveness scenarioGraphS4 [2] 2 = [true, true, true] := by
  decide

/-- Scenario graph: a hierarchical state — addresses 2 and 3 are children
of address 1; command 0 writes the parent, command 1 reads child 2. -/
def scenarioGraphS5 : DependencyGraph :=
  { Behaviours := [{ AtomBehaviour.empty with Writes := [1] },
                   { AtomBehaviour.empty with Reads := [2] }],
    Roots := [], parents := [0, 0, 1, 1] }

/-- Sanity check of the hierarchy handling: requesting command 1 marks
child address 2 live, which makes the *parent* write of command 0 live via
the `anyLive` walk. -/
theorem sweep_hierarchy_parent_live :
    propagateLiveness scenarioGraphS5 [1] 1 = [true, true] := by
  decide

/-- Scenario graph: command 0 aborted, command 1 reads address 1, which is
a root. -/
def scenarioGraphS6 : DependencyGraph :=
  { Behaviours := [{ AtomBehaviour.empty with Aborted := true },
                   { AtomBehaviour.empty with Reads := [1] }],
    Roots := [1], parents := [0, 0] }

/-- Sanity check of the aborted-command handling: the aborted command 0 is
skipped by the sweep and stays dead while the requested command 1 is
kept. -/
theorem sweep_aborted_skipped :
    propagateLiveness scenarioGraphS6 [1] 1 = [false, true] := by
  decide

/-- C1 counterexample: a requested command whose behaviour is aborted (and
not keep-alive) is not live: with a single aborted command and request set
`{0}`, the sweep returns `[false]`, contradicting "isLive[q] = true for
every requested q". -/
theorem dce_requested_live_counterexample :
    propagateLiveness abortedGraph [0] 0 = [false] ∧ (0 : Nat) ∈ [0] := by
  constructor
  · decide
  · decide

/-- C1 (amended): for every graph, request set and `lastRequest`, every
requested id `q ≤ lastRequest` whose behaviour is not aborted gets
`isLive[q] = true`.  (An aborted requested command instead gets its
`keepAlive` flag: the sweep checks `aborted` before the request set.) -/
theorem dce_requested_live {g : DependencyGraph} {req : List Nat}
    {lastRequest q : Nat} (hq : q ∈ req) (hle : q ≤ lastRequest)
    (hab : (getBeh g q).Aborted = false) :
    (propagateLiveness g req lastRequest).getD q false = true := by
  unfold propagateLiveness
  exact sweepDown_getD g req (sweepStep_requested g req q hq hab) lastRequest
    newTree hle

/-- Witness for C1 (amended): one non-aborted command, request set `{0}`. -/
theorem dce_requested_live_witness :
    (0 : Nat) ∈ [0] ∧ (0 : Nat) ≤ 0 ∧
    (getBeh plainGraph 0).Aborted = false ∧
    (propagateLiveness plainGraph [0] 0).getD 0 false = true :=
  ⟨by decide, by decide, by decide,
    dce_requested_live (by decide) (by decide) (by decide)⟩

/-- C3 counterexample: an aborted command that is not requested but has
`keepAlive = true` stays live: the claim "aborted and not requested implies
isLive[i] = false" fails.  Command 0 is aborted with `keepAlive`, only
command 1 is requested, and the sweep returns `[true, true]`: index 0 is
true even though aborted and unrequested. -/
theorem dce_aborted_dead_counterexample :
    propagateLiveness abortedKeepAliveGraph [1] 1 = [true, true] ∧
    (getBeh abortedKeepAliveGraph 0).Aborted = true ∧
    (0 : Nat) ∉ [1] := by
  refine ⟨by decide, by decide, by decide⟩

/-- C3 (amended): for every graph, request set and `lastRequest`, every id
`i ≤ lastRequest` with an aborted behaviour gets
`isLive[i] = behaviours[i].keepAlive` — whether or not it was requested
(the sweep skips the request check for aborted commands). -/
theorem dce_aborted_keepAlive {g : DependencyGraph} {req : List Nat}
    {lastRequest i : Nat} (hle : i ≤ lastRequest)
    (hab : (getBeh g i).Aborted = true) :
    (propagateLiveness g req lastRequest).getD i false
      = (getBeh g i).KeepAlive := by
  unfold propagateLiveness
  exact sweepDown_getD g req (sweepStep_aborted g req i hab) lastRequest
    newTree hle

/-- Witness for C3 (amended): a single aborted command, request set `{0}`. -/
theorem dce_aborted_keepAlive_witness :
    (0 : Nat) ≤ 0 ∧
    (getBeh abortedGraph 0).Aborted = true ∧
    (propagateLiveness abortedGraph [0] 0).getD 0 false
      = (getBeh abortedGraph 0).KeepAlive :=
  ⟨by decide, by decide, dce_aborted_keepAlive (by decide) (by decide)⟩

/-- C6 counterexample: `Request` performs no validation.  On a graph with a
single command, requesting id 5 succeeds, records the id and sets
`lastRequest = 5 ≥ len(commands)` — no precondition error is raised. -/
theorem request_no_validation_counterexample :
    Request (NewDeadCodeElimination plainGraph) 5
      = { dependencyGraph := plainGraph, requests := [5], lastRequest := 5 } ∧
    plainGraph.Behaviours.length = 1 := by
  constructor
  · rfl
  · rfl

/-- C6 (amended): `Request` always succeeds: it adds the id to the request
set and updates `lastRequest` to the maximum, with no range check against
the number of commands; callers must guarantee
`lastRequest < len(commands)` themselves. -/
theorem request_accepts_any_id (t : DeadCodeElimination) (id : Nat) :
    (Request t id).requests = id :: t.requests ∧
    (Request t id).lastRequest = max t.lastRequest id ∧
    (Request t id).dependencyGraph = t.dependencyGraph := by
  refine ⟨rfl, ?_, rfl⟩
  simp only [Request]
  rcases Nat.lt_or_ge t.lastRequest id with h | h
  · rw [if_pos h]
    omega
  · rw [if_neg (by omega)]
    omega

/-- C9: `Transform` panics unconditionally with the message from the
source, for every transform state, id, atom and output writer; no atom is
ever forwarded. -/
theorem transform_always_panics (t : DeadCodeElimination) (id : Nat)
    (a : Nat) (out : List (Nat × Nat)) :
    Transform t id a out
      = Except.error "This transform does not accept input atoms" ∧
    ∀ res, Transform t id a out ≠ Except.ok res := by
  constructor
  · rfl
  · intro res hcon
    exact absurd hcon (by simp [Transform])

/-- C7 counterexample: with an empty request set, a `keepAlive` command
with id 1 is not emitted (only id 0 is ever considered, because
`lastRequest` stays 0): the claim "every keepAlive, non-aborted command is
still emitted" fails. -/
theorem flush_empty_counterexample :
    Flush (NewDeadCodeElimination lateKeepAliveGraph) = [] ∧
    (getBeh lateKeepAliveGraph 1).KeepAlive = true ∧
    (getBeh lateKeepAliveGraph 1).Aborted = false := by
  refine ⟨by decide, by decide, by decide⟩

/-- C7 (amended): if `Flush` runs with an empty request set on a non-empty
capture, no command is made live by request-marking; since `lastRequest`
is still 0 the sweep only considers command 0, which is emitted exactly
when its behaviour has `keepAlive` — commands with id ≥ 1 are never
emitted. -/
theorem flush_empty_requests (g : DependencyGraph)
    (hne : 0 < g.Behaviours.length) :
    Flush (NewDeadCodeElimination g)
      = if (getBeh g 0).KeepAlive then [0] else [] := by
  unfold Flush NewDeadCodeElimination
  simp only
  have hprop : propagateLiveness g [] 0 = [(getBeh g 0).KeepAlive] := by
    unfold propagateLiveness sweepDown
    rw [sweepStep_empty_fresh]
  rw [hprop]
  by_cases hk : (getBeh g 0).KeepAlive
  · rw [if_pos hk, hk]
    rfl
  · have hk2 : (getBeh g 0).KeepAlive = false := by
      cases hval : (getBeh g 0).KeepAlive
      · rfl
      · exact absurd hval hk
    rw [if_neg hk, hk2]
    rfl

/-- Witness for C7 (amended): a single keep-alive command is emitted. -/
theorem flush_empty_requests_witness :
    0 < keepAliveGraph.Behaviours.length ∧
    Flush (NewDeadCodeElimination keepAliveGraph)
      = if (getBeh keepAliveGraph 0).KeepAlive then [0] else [] :=
  ⟨by decide, flush_empty_requests keepAliveGraph (by decide)⟩

/-! ### The state address map (`addressMapping` in `dependency_graph.go`)

State keys are opaque values with a `Parent()` chain; the Go `nil`
interface (the null sentinel) is modelled as `none`.  The three Go maps are
association lists in insertion order; `len(m.address)` is the entry count.
A Go `panic` (calling `Parent()` on the nil interface, or the failed type
assertion in `GetDependencyGraph`) is modelled as `none` in an `Option`
result. -/

/-- An opaque state key.  `root` keys answer the nil interface from
`Parent()`; `child` keys carry their parent key. -/
inductive SKey where
  | root (tag : Nat) : SKey
  | child (tag : Nat) (parent : SKey) : SKey
deriving DecidableEq, Repr

/-- `Parent()` of a key (`none` = the Go nil interface). -/
def SKey.Parent : SKey → Option SKey
  | .root _ => none
  | .child _ p => some p

/-- `addressMapping`: key→address, address→key and address→parent maps. -/
structure addressMapping where
  address : List (Option SKey × Nat)
  key : List (Nat × Option SKey)
  parent : List (Nat × Nat)
deriving DecidableEq, Repr

/-- `addressOf` on a non-nil key: return the interned address, or intern
the key at the next sequential address, recursively intern its parent and
record the parent link.  The recursive `addressOf(state.Parent())` call on
a `root` key receives the nil interface: it looks the sentinel up in the
updated map (one unfolding of the source's recursion) and would panic
(`none`) on a map that never interned the sentinel.  `internAt` is the
insertion of a key at the next sequential address into the key/address
maps. -/
def internAt (m : addressMapping) (k : SKey) : addressMapping :=
  { address := m.address ++ [(some k, m.address.length)],
    key := m.key ++ [(m.address.length, some k)],
    parent := m.parent }

def addressOfK : addressMapping → SKey → Option (Nat × addressMapping)
  | m, .root tag =>
    match m.address.lookup (some (.root tag)) with
    | some a => some (a, m)
    | none =>
      let a := m.address.length
      let m1 := internAt m (.root tag)
      match m1.address.lookup none with
      | some pa => some (a, { m1 with parent := m1.parent ++ [(a, pa)] })
      | none => none
  | m, .child tag p =>
    match m.address.lookup (some (.child tag p)) with
    | some a => some (a, m)
    | none =>
      let a := m.address.length
      let m1 := internAt m (.child tag p)
      match addressOfK m1 p with
      | none => none
      | some pr => some (a, { pr.2 with parent := pr.2.parent ++ [(a, pr.1)] })

/-- `addressOf` on any key, the nil interface included. -/
def addressOf (m : addressMapping) : Option SKey → Option (Nat × addressMapping)
  | none =>
    match m.address.lookup none with
    | some a => some (a, m)
    | none => none
  | some k => addressOfK m k

/-- The graph state touched by `AtomBehaviour.Read/Modify/Write`. -/
structure BuildGraph where
  addressMap : addressMapping
deriving DecidableEq, Repr

/-- `AtomBehaviour.Read`: a nil key is ignored; otherwise the key is
interned and appended to `Reads`. -/
def AtomBehaviour.Read (b : AtomBehaviour) (g : BuildGraph)
    (state : Option SKey) : Option (AtomBehaviour × BuildGraph) :=
  match state with
  | none => some (b, g)
  | some k =>
    match addressOf g.addressMap (some k) with
    | none => none
    | some pr => some ({ b with Reads := b.Reads ++ [pr.1] },
        { addressMap := pr.2 })

/-- `AtomBehaviour.Modify`: a nil key is ignored; otherwise the key is
interned and appended to `Modifies`. -/
def AtomBehaviour.Modify (b : AtomBehaviour) (g : BuildGraph)
    (state : Option SKey) : Option (AtomBehaviour × BuildGraph) :=
  match state with
  | none => some (b, g)
  | some k =>
    match addressOf g.addressMap (some k) with
    | none => none
    | some pr => some ({ b with Modifies := b.Modifies ++ [pr.1] },
        { addressMap := pr.2 })

/-- `AtomBehaviour.Write`: a nil key is ignored; otherwise the key is
interned and appended to `Writes`. -/
def AtomBehaviour.Write (b : AtomBehaviour) (g : BuildGraph)
    (state : Option SKey) : Option (AtomBehaviour × BuildGraph) :=
  match state with
  | none => some (b, g)
  | some k =>
    match addressOf g.addressMap (some k) with
    | none => none
    | some pr => some ({ b with Writes := b.Writes ++ [pr.1] },
        { addressMap := pr.2 })

/-- The address map as initialized by `Resolve`: the null sentinel at
address 0, its own parent. -/
def initialMapping : addressMapping :=
  { address := [(none, 0)], key := [(0, none)], parent := [(0, 0)] }

/-- Address values are `0, 1, …, n-1` in insertion order. -/
def WFaddr (m : addressMapping) : Prop :=
  m.address.map Prod.snd = List.range m.address.length

instance (m : addressMapping) : Decidable (WFaddr m) := by
  unfold WFaddr
  infer_instance

/-! ### Properties of the address map -/

theorem lookup_mem {α β : Type} [BEq α] [LawfulBEq α] :
    ∀ (l : List (α × β)) (k : α) (v : β), l.lookup k = some v → (k, v) ∈ l := by
  intro l
  induction l with
  | nil => intro k v h; exact absurd h (by simp [List.lookup])
  | cons e t ih =>
    intro k v h
    rcases e with ⟨k0, v0⟩
    simp only [List.lookup] at h
    by_cases hk : k = k0
    · subst hk
      simp only [beq_self_eq_true] at h
      injection h with h
      subst h
      exact List.mem_cons_self _ _
    · rw [beq_eq_false_iff_ne.mpr hk] at h
      exact List.mem_cons_of_mem _ (ih k v h)

theorem lookup_append_some {α β : Type} [BEq α] [LawfulBEq α] :
    ∀ (l1 l2 : List (α × β)) (k : α) (v : β),
      l1.lookup k = some v → (l1 ++ l2).lookup k = some v := by
  intro l1
  induction l1 with
  | nil => intro l2 k v h; exact absurd h (by simp [List.lookup])
  | cons e t ih =>
    intro l2 k v h
    rcases e with ⟨k0, v0⟩
    simp only [List.lookup, List.cons_append] at h ⊢
    cases hk : (k == k0) with
    | true => rw [hk] at h; exact h
    | false => rw [hk] at h; exact ih l2 k v h

theorem lookup_append_none {α β : Type} [BEq α] [LawfulBEq α] :
    ∀ (l1 l2 : List (α × β)) (k : α),
      l1.lookup k = none → (l1 ++ l2).lookup k = l2.lookup k := by
  intro l1
  induction l1 with
  | nil => intro l2 k h; rfl
  | cons e t ih =>
    intro l2 k h
    rcases e with ⟨k0, v0⟩
    simp only [List.lookup, List.cons_append] at h ⊢
    cases hk : (k == k0) with
    | true => rw [hk] at h; exact absurd h (by simp)
    | false => rw [hk] at h; exact ih l2 k h

/-- Interning only appends to the key→address map. -/
theorem addressOfK_address_ext :
    ∀ (k : SKey) (m m2 : addressMapping) (a : Nat),
      addressOfK m k = some (a, m2) → ∃ ext, m2.address = m.address ++ ext := by
  intro k
  induction k with
  | root tag =>
    intro m m2 a h
    simp only [addressOfK] at h
    cases hl : (m.address.lookup (some (.root tag))) with
    | some a0 =>
      rw [hl] at h
      simp at h
      exact ⟨[], by rw [h.2]; simp⟩
    | none =>
      rw [hl] at h
      cases hl2 : ((internAt m (.root tag)).address.lookup none) with
      | some pa =>
        rw [hl2] at h
        simp at h
        exact ⟨[(some (.root tag), m.address.length)], by rw [← h.2]; rfl⟩
      | none => rw [hl2] at h; exact absurd h (by simp)
  | child tag p ih =>
    intro m m2 a h
    simp only [addressOfK] at h
    cases hl : (m.address.lookup (some (.child tag p))) with
    | some a0 =>
      rw [hl] at h
      simp at h
      exact ⟨[], by rw [h.2]; simp⟩
    | none =>
      rw [hl] at h
      cases hrec : addressOfK (internAt m (.child tag p)) p with
      | none => rw [hrec] at h; exact absurd h (by simp)
      | some pr =>
        rw [hrec] at h
        simp at h
        rcases ih _ _ _ hrec with ⟨ext, hext⟩
        refine ⟨(some (.child tag p), m.address.length) :: ext, ?_⟩
        rw [← h.2]
        simp only [hext]
        simp [internAt]

/-- After interning, the key is in the map at the returned address. -/
theorem addressOfK_lookup_self :
    ∀ (k : SKey) (m m2 : addressMapping) (a : Nat),
      addressOfK m k = some (a, m2) → m2.address.lookup (some k) = some a := by
  intro k
  induction k with
  | root tag =>
    intro m m2 a h
    simp only [addressOfK] at h
    cases hl : (m.address.lookup (some (.root tag))) with
    | some a0 =>
      rw [hl] at h
      simp at h
      rw [← h.2, ← h.1]
      exact hl
    | none =>
      rw [hl] at h
      cases hl2 : ((internAt m (.root tag)).address.lookup none) with
      | some pa =>
        rw [hl2] at h
        simp at h
        rw [← h.2, ← h.1]
        show (m.address ++
            [(some (SKey.root tag), m.address.length)]).lookup
            (some (SKey.root tag)) = some m.address.length
        rw [lookup_append_none _ _ _ hl]
        simp [List.lookup]
      | none => rw [hl2] at h; exact absurd h (by simp)
  | child tag p ih =>
    intro m m2 a h
    simp only [addressOfK] at h
    cases hl : (m.address.lookup (some (.child tag p))) with
    | some a0 =>
      rw [hl] at h
      simp at h
      rw [← h.2, ← h.1]
      exact hl
    | none =>
      rw [hl] at h
      cases hrec : addressOfK (internAt m (.child tag p)) p with
      | none => rw [hrec] at h; exact absurd h (by simp)
      | some pr =>
        rw [hrec] at h
        simp at h
        rcases addressOfK_address_ext _ _ _ _ hrec with ⟨ext, hext⟩
        have h1 : (internAt m (.child tag p)).address.lookup
            (some (.child tag p)) = some m.address.length := by
          show (m.address ++
              [(some (SKey.child tag p), m.address.length)]).lookup
              (some (SKey.child tag p)) = some m.address.length
          rw [lookup_append_none _ _ _ hl]
          simp [List.lookup]
        rw [← h.2, ← h.1]
        show pr.2.address.lookup _ = _
        rw [hext]
        exact lookup_append_some _ _ _ _ h1

/-- Interning preserves the dense-numbering invariant. -/
theorem internAt_WF {m : addressMapping} (hwf : WFaddr m) (k : SKey) :
    WFaddr (internAt m k) := by
  unfold WFaddr at hwf ⊢
  simp [internAt, hwf, List.range_succ]

theorem addressOfK_WF :
    ∀ (k : SKey) (m m2 : addressMapping) (a : Nat), WFaddr m →
      addressOfK m k = some (a, m2) → WFaddr m2 := by
  intro k
  induction k with
  | root tag =>
    intro m m2 a hwf h
    simp only [addressOfK] at h
    cases hl : (m.address.lookup (some (.root tag))) with
    | some a0 =>
      rw [hl] at h
      simp at h
      rw [← h.2]
      exact hwf
    | none =>
      rw [hl] at h
      cases hl2 : ((internAt m (.root tag)).address.lookup none) with
      | some pa =>
        rw [hl2] at h
        simp at h
        rw [← h.2]
        exact internAt_WF hwf _
      | none => rw [hl2] at h; exact absurd h (by simp)
  | child tag p ih =>
    intro m m2 a hwf h
    simp only [addressOfK] at h
    cases hl : (m.address.lookup (some (.child tag p))) with
    | some a0 =>
      rw [hl] at h
      simp at h
      rw [← h.2]
      exact hwf
    | none =>
      rw [hl] at h
      cases hrec : addressOfK (internAt m (.child tag p)) p with
      | none => rw [hrec] at h; exact absurd h (by simp)
      | some pr =>
        rw [hrec] at h
        simp at h
        have := ih _ _ _ (internAt_WF hwf _) hrec
        rw [← h.2]
        exact this

/-- Distinct keys never share an address in a well-formed map. -/
theorem WFaddr_lookup_inj {m : addressMapping} (hwf : WFaddr m)
    {s1 s2 : Option SKey} {a : Nat} (h1 : m.address.lookup s1 = some a)
    (h2 : m.address.lookup s2 = some a) : s1 = s2 := by
  have hm1 := lookup_mem _ _ _ h1
  have hm2 := lookup_mem _ _ _ h2
  rcases List.getElem_of_mem hm1 with ⟨i1, hi1, he1⟩
  rcases List.getElem_of_mem hm2 with ⟨i2, hi2, he2⟩
  have hv1 : m.address[i1].2 = a := by rw [he1]
  have hv2 : m.address[i2].2 = a := by rw [he2]
  have hr1 : m.address[i1].2 = i1 := by
    have h3 : (List.map Prod.snd m.address)[i1]? = some (m.address[i1].2) := by
      simp [List.getElem?_eq_getElem hi1]
    rw [hwf] at h3
    have h4 : (List.range m.address.length)[i1]? = some i1 :=
      List.getElem?_range hi1
    rw [h4] at h3
    injection h3 with h3
    exact h3.symm
  have hr2 : m.address[i2].2 = i2 := by
    have h3 : (List.map Prod.snd m.address)[i2]? = some (m.address[i2].2) := by
      simp [List.getElem?_eq_getElem hi2]
    rw [hwf] at h3
    have h4 : (List.range m.address.length)[i2]? = some i2 :=
      List.getElem?_range hi2
    rw [h4] at h3
    injection h3 with h3
    exact h3.symm
  have hieq : i1 = i2 := by omega
  subst hieq
  have hpair : (s1, a) = (s2, a) := by rw [← he1, ← he2]
  exact congrArg Prod.fst hpair

/-- C8: the address map's `addressOf` is idempotent — interning an
already-interned key returns its existing address and leaves the map
unchanged, and re-interning right after an intern is stable — and
injective — in a well-formed map (dense addresses in insertion order,
preserved by interning and true of the initial map) distinct keys never
receive the same address — and the null sentinel at address 0 of the
initial map is its own parent. -/
theorem addressMap_props :
    (∀ (m : addressMapping) (s : Option SKey) (a : Nat),
        m.address.lookup s = some a → addressOf m s = some (a, m)) ∧
    (∀ (m m2 : addressMapping) (s : Option SKey) (a : Nat),
        addressOf m s = some (a, m2) → addressOf m2 s = some (a, m2)) ∧
    (∀ (m m2 : addressMapping) (s : Option SKey) (a : Nat), WFaddr m →
        addressOf m s = some (a, m2) → WFaddr m2) ∧
    (∀ (m : addressMapping), WFaddr m →
        ∀ (s1 s2 : Option SKey) (a : Nat), m.address.lookup s1 = some a →
          m.address.lookup s2 = some a → s1 = s2) ∧
    WFaddr initialMapping ∧
    initialMapping.parent.lookup 0 = some 0 := by
  have hidem : ∀ (m : addressMapping) (s : Option SKey) (a : Nat),
      m.address.lookup s = some a → addressOf m s = some (a, m) := by
    intro m s a h
    cases s with
    | none => simp [addressOf, h]
    | some k =>
      cases k with
      | root tag => simp [addressOf, addressOfK, h]
      | child tag p => simp [addressOf, addressOfK, h]
  have hself : ∀ (m m2 : addressMapping) (s : Option SKey) (a : Nat),
      addressOf m s = some (a, m2) → m2.address.lookup s = some a := by
    intro m m2 s a h
    cases s with
    | none =>
      simp only [addressOf] at h
      cases hl : (m.address.lookup (none : Option SKey)) with
      | some a0 =>
        rw [hl] at h
        simp at h
        rw [← h.2, ← h.1]
        exact hl
      | none => rw [hl] at h; exact absurd h (by simp)
    | some k => exact addressOfK_lookup_self k m m2 a h
  refine ⟨hidem, ?_, ?_, ?_, by decide, by decide⟩
  · intro m m2 s a h
    exact hidem m2 s a (hself m m2 s a h)
  · intro m m2 s a hwf h
    cases s with
    | none =>
      simp only [addressOf] at h
      cases hl : (m.address.lookup (none : Option SKey)) with
      | some a0 =>
        rw [hl] at h
        simp at h
        rw [← h.2]
        exact hwf
      | none => rw [hl] at h; exact absurd h (by simp)
    | some k => exact addressOfK_WF k m m2 a hwf h
  · intro m hwf s1 s2 a h1 h2
    exact WFaddr_lookup_inj hwf h1 h2

/-- Witness for C8 at concrete inputs: re-interning the pre-interned null
sentinel of the initial map returns address 0 and the unchanged map. -/
theorem addressMap_props_witness :
    initialMapping.address.lookup none = some 0 ∧
    addressOf initialMapping none = some (0, initialMapping) :=
  ⟨by decide, addressMap_props.1 initialMapping none 0 (by decide)⟩

/-- C10: recording a nil state key is a no-op: `Read`, `Modify` and
`Write` with a nil key leave the behaviour's lists and the graph's address
map unchanged (the source guards each with `if state != nil`). -/
theorem behaviour_nil_key_noop (b : AtomBehaviour) (g : BuildGraph) :
    b.Read g none = some (b, g) ∧
    b.Modify g none = some (b, g) ∧
    b.Write g none = some (b, g) := by
  refine ⟨rfl, rfl, rfl⟩

/-! ### The dependency graph builder (`Resolve` in `dependency_graph.go`)

Per command the builder either asks the API's behaviour provider for the
behaviour, or — when the API provides no dependency information — marks the
command `keepAlive` and mutates it into the state.  A command is given by
its API's capability (`hasProvider`), the outcome of its `Mutate` call and
the behaviour its provider would return. -/

/-- What `Resolve` needs to know about one atom. -/
structure ResolveAtom where
  hasProvider : Bool
  mutateOk : Bool
  behaviour : AtomBehaviour
deriving DecidableEq, Repr

/-- The dynamic value `Resolve` returns in `interface{}`: the completed
graph's behaviours array on the happy path, or the stray
`AtomBehaviour{Aborted: true}` value returned when a mutation fails. -/
inductive ResolveResult where
  | graph (behaviours : List AtomBehaviour) : ResolveResult
  | atomBehaviour (b : AtomBehaviour) : ResolveResult
deriving DecidableEq, Repr

/-- The command loop of `Resolve`: on a mutation error in the no-provider
branch the function returns `AtomBehaviour{Aborted: true}, nil` — ending
the whole build — instead of recording the flag and continuing. -/
def resolveLoop : List ResolveAtom → List AtomBehaviour → ResolveResult
  | [], acc => .graph acc
  | a :: rest, acc =>
    if a.hasProvider then resolveLoop rest (acc ++ [a.behaviour])
    else
      if a.mutateOk then
        resolveLoop rest
          (acc ++ [{ AtomBehaviour.empty with KeepAlive := true }])
      else .atomBehaviour { AtomBehaviour.empty with Aborted := true }

/-- `GetDependencyGraph` asserts the result to `*DependencyGraph`
(`r.(*DependencyGraph)`); on the stray `AtomBehaviour` value the assertion
panics (`none`). -/
def GetDependencyGraphModel (atoms : List ResolveAtom) :
    Option (List AtomBehaviour) :=
  match resolveLoop atoms [] with
  | .graph bs => some bs
  | .atomBehaviour _ => none

/-- C4: the code contradicts the claim.  On a capture whose first command
has no provider and whose `Mutate` fails, `Resolve` returns the stray
`AtomBehaviour{Aborted: true}` value instead of a completed graph: the
build does not continue (the second command is never processed), no
`behaviours[i].aborted` flag is recorded in a graph, and the caller's type
assertion fails (`GetDependencyGraphModel` = `none`). -/
theorem resolve_mutate_error_aborts_build :
    resolveLoop
        [{ hasProvider := false, mutateOk := false,
           behaviour := AtomBehaviour.empty },
         { hasProvider := true, mutateOk := true,
           behaviour := AtomBehaviour.empty }] []
      = .atomBehaviour { AtomBehaviour.empty with Aborted := true } ∧
    GetDependencyGraphModel
        [{ hasProvider := false, mutateOk := false,
           behaviour := AtomBehaviour.empty },
         { hasProvider := true, mutateOk := true,
           behaviour := AtomBehaviour.empty }]
      = none := by
  refine ⟨by decide, by decide⟩

/-! ### Monotonicity of the sweep in the request set

The sweep touches the liveness tree only through `IsLive`, `MarkLive` and
`MarkDead`; by the exact characterization (`IsLive_eq_Gsem`) it can be
replayed over the reference semantics, where the monotonicity argument is
carried out with an upward-closure invariant. -/

/-- The sweep step replayed over the reference semantics. -/
def gsweepStep (g : DependencyGraph) (req : List Nat) (i : Nat)
    (σ : Nat → Bool) : Bool × (Nat → Bool) :=
  let b := getBeh g i
  if b.Aborted then (b.KeepAlive, σ)
  else
    let pr : Bool × (Nat → Bool) :=
      if i ∈ req then
        (true, g.Roots.foldl (fun σ r => Gstep g.parents σ (.live r)) σ)
      else (b.KeepAlive, σ)
    let pw : Bool × (Nat → Bool) :=
      b.Writes.foldl (fun p w =>
        if p.2 w then (true, Gstep g.parents p.2 (.dead w)) else p) pr
    let l2 : Bool :=
      b.Modifies.foldl (fun l m => if pw.2 m then true else l) pw.1
    if l2 then
      (l2, b.Reads.foldl (fun σ r => Gstep g.parents σ (.live r))
        (b.Modifies.foldl (fun σ m => Gstep g.parents σ (.live m)) pw.2))
    else (l2, pw.2)

/-- The descending sweep loop over the reference semantics. -/
def gsweepDown (g : DependencyGraph) (req : List Nat) :
    Nat → (Nat → Bool) → List Bool × (Nat → Bool)
  | 0, σ =>
    ((gsweepStep g req 0 σ).1 :: [], (gsweepStep g req 0 σ).2)
  | i + 1, σ =>
    ((gsweepDown g req i (gsweepStep g req (i + 1) σ).2).1 ++
       [(gsweepStep g req (i + 1) σ).1],
     (gsweepDown g req i (gsweepStep g req (i + 1) σ).2).2)

theorem gsweepDown_length (g : DependencyGraph) (req : List Nat) :
    ∀ i σ, (gsweepDown g req i σ).1.length = i + 1 := by
  intro i
  induction i with
  | zero => intro σ; rfl
  | succ i ih =>
    intro σ
    simp only [gsweepDown, List.length_append, ih, List.length_singleton]

/-- A `MarkLive` fold on a tree in the image of `applyOps` appends the
corresponding ops to the history. -/
theorem foldl_markLive_applyOps (ps : List Nat) :
    ∀ (rs : List Nat) (h : List Op),
      rs.foldl (fun t r => MarkLive ps t r) (applyOps ps newTree h)
        = applyOps ps newTree (h ++ rs.map Op.live) := by
  intro rs
  induction rs with
  | nil => intro h; simp
  | cons r rs ih =>
    intro h
    simp only [List.foldl_cons]
    have h1 : MarkLive ps (applyOps ps newTree h) r
        = applyOps ps newTree (h ++ [.live r]) := by
      rw [applyOps_append]
      rfl
    rw [h1, ih]
    simp

/-- The matching fold over the reference semantics. -/
theorem foldl_gstepLive_Gsem (ps : List Nat) :
    ∀ (rs : List Nat) (h : List Op),
      rs.foldl (fun σ r => Gstep ps σ (.live r)) (Gsem ps h)
        = Gsem ps (h ++ rs.map Op.live) := by
  intro rs
  induction rs with
  | nil => intro h; simp
  | cons r rs ih =>
    intro h
    simp only [List.foldl_cons]
    rw [← Gsem_append, ih]
    simp

/-- The writes fold on a tree in the image of `applyOps` computes the same
liveness bit as its replay over the reference semantics, and lands on a
tree in the image again. -/
theorem writesFold_bridge {ps : List Nat} (hc : Coherent ps) :
    ∀ (ws : List Nat) (h : List Op) (l : Bool),
      ∃ h2,
        ws.foldl (fun (p : Bool × LTree) w =>
            if IsLive ps p.2 w then (true, MarkDead p.2 w) else p)
          (l, applyOps ps newTree h)
          = ((ws.foldl (fun (q : Bool × (Nat → Bool)) w =>
              if q.2 w then (true, Gstep ps q.2 (.dead w)) else q)
              (l, Gsem ps h)).1, applyOps ps newTree h2) ∧
        (ws.foldl (fun (q : Bool × (Nat → Bool)) w =>
            if q.2 w then (true, Gstep ps q.2 (.dead w)) else q)
            (l, Gsem ps h)).2 = Gsem ps h2 := by
  intro ws
  induction ws with
  | nil => intro h l; exact ⟨h, rfl, rfl⟩
  | cons w ws ih =>
    intro h l
    simp only [List.foldl_cons]
    rw [IsLive_eq_Gsem hc]
    by_cases hw : Gsem ps h w
    · rw [if_pos hw, if_pos hw]
      have h1 : MarkDead (applyOps ps newTree h) w
          = applyOps ps newTree (h ++ [.dead w]) := by
        rw [applyOps_append]
        rfl
      have h2 : Gstep ps (Gsem ps h) (.dead w) = Gsem ps (h ++ [.dead w]) :=
        (Gsem_append ps h _).symm
      rw [h1, h2]
      exact ih (h ++ [.dead w]) true
    · have hw2 : Gsem ps h w = false := by
        cases hval : Gsem ps h w
        · rfl
        · exact absurd hval hw
      rw [hw2]
      simp only [Bool.false_eq_true, if_false]
      exact ih h l

/-- The modifies check computes the same bit over tree and semantics. -/
theorem modifiesFold_bridge {ps : List Nat} (hc : Coherent ps)
    (h : List Op) :
    ∀ (ms : List Nat) (l : Bool),
      ms.foldl (fun l m =>
          if IsLive ps (applyOps ps newTree h) m then true else l) l
        = ms.foldl (fun l m => if Gsem ps h m then true else l) l := by
  intro ms
  induction ms with
  | nil => intro l; rfl
  | cons m ms ih =>
    intro l
    simp only [List.foldl_cons]
    rw [IsLive_eq_Gsem hc]
    exact ih _

/-- One sweep step on a tree in the image of `applyOps` computes the same
liveness bit as its replay over the reference semantics and lands in the
image again. -/
theorem sweepStep_bridge {g : DependencyGraph} (hc : Coherent g.parents)
    (req : List Nat) (i : Nat) (h : List Op) :
    ∃ h2,
      sweepStep g req i (applyOps g.parents newTree h)
        = ((gsweepStep g req i (Gsem g.parents h)).1,
           applyOps g.parents newTree h2) ∧
      (gsweepStep g req i (Gsem g.parents h)).2 = Gsem g.parents h2 := by
  unfold sweepStep gsweepStep
  by_cases hab : (getBeh g i).Aborted
  · rw [if_pos hab, if_pos hab]
    exact ⟨h, rfl, rfl⟩
  · rw [if_neg hab, if_neg hab]
    simp only
    by_cases hreq : i ∈ req
    · rw [if_pos hreq, if_pos hreq,
        foldl_markLive_applyOps g.parents g.Roots h,
        foldl_gstepLive_Gsem g.parents g.Roots h]
      obtain ⟨h2, hw1, hw2⟩ := writesFold_bridge hc (getBeh g i).Writes
        (h ++ g.Roots.map Op.live) true
      rw [hw1, hw2]
      simp only
      rw [modifiesFold_bridge hc h2]
      by_cases hl2 : ((getBeh g i).Modifies.foldl
          (fun l m => if Gsem g.parents h2 m then true else l)
          ((getBeh g i).Writes.foldl (fun (q : Bool × (Nat → Bool)) w =>
            if q.2 w then (true, Gstep g.parents q.2 (.dead w)) else q)
            (true, Gsem g.parents (h ++ g.Roots.map Op.live))).1) = true
      · rw [if_pos hl2, if_pos hl2,
          foldl_markLive_applyOps g.parents (getBeh g i).Modifies h2,
          foldl_markLive_applyOps g.parents (getBeh g i).Reads
            (h2 ++ (getBeh g i).Modifies.map Op.live),
          foldl_gstepLive_Gsem g.parents (getBeh g i).Modifies h2,
          foldl_gstepLive_Gsem g.parents (getBeh g i).Reads
            (h2 ++ (getBeh g i).Modifies.map Op.live)]
        exact ⟨h2 ++ (getBeh g i).Modifies.map Op.live
          ++ (getBeh g i).Reads.map Op.live, rfl, rfl⟩
      · rw [if_neg hl2, if_neg hl2]
        exact ⟨h2, rfl, rfl⟩
    · rw [if_neg hreq, if_neg hreq]
      obtain ⟨h2, hw1, hw2⟩ := writesFold_bridge hc (getBeh g i).Writes
        h (getBeh g i).KeepAlive
      rw [hw1, hw2]
      simp only
      rw [modifiesFold_bridge hc h2]
      by_cases hl2 : ((getBeh g i).Modifies.foldl
          (fun l m => if Gsem g.parents h2 m then true else l)
          ((getBeh g i).Writes.foldl (fun (q : Bool × (Nat → Bool)) w =>
            if q.2 w then (true, Gstep g.parents q.2 (.dead w)) else q)
            ((getBeh g i).KeepAlive, Gsem g.parents h)).1) = true
      · rw [if_pos hl2, if_pos hl2,
          foldl_markLive_applyOps g.parents (getBeh g i).Modifies h2,
          foldl_markLive_applyOps g.parents (getBeh g i).Reads
            (h2 ++ (getBeh g i).Modifies.map Op.live),
          foldl_gstepLive_Gsem g.parents (getBeh g i).Modifies h2,
          foldl_gstepLive_Gsem g.parents (getBeh g i).Reads
            (h2 ++ (getBeh g i).Modifies.map Op.live)]
        exact ⟨h2 ++ (getBeh g i).Modifies.map Op.live
          ++ (getBeh g i).Reads.map Op.live, rfl, rfl⟩
      · rw [if_neg hl2, if_neg hl2]
        exact ⟨h2, rfl, rfl⟩

/-- The whole sweep computes the same bits as its abstract replay. -/
theorem sweepDown_bridge {g : DependencyGraph} (hc : Coherent g.parents)
    (req : List Nat) :
    ∀ i h, (sweepDown g req i (applyOps g.parents newTree h)).1
      = (gsweepDown g req i (Gsem g.parents h)).1 := by
  intro i
  induction i with
  | zero =>
    intro h
    obtain ⟨h2, hs1, hs2⟩ := sweepStep_bridge hc req 0 h
    simp only [sweepDown, gsweepDown, hs1]
  | succ i ih =>
    intro h
    obtain ⟨h2, hs1, hs2⟩ := sweepStep_bridge hc req (i + 1) h
    simp only [sweepDown, gsweepDown, hs1, hs2]
    rw [ih h2]

/-- `propagateLiveness` equals the abstract sweep from the all-false
state. -/
theorem propagateLiveness_eq_abstract {g : DependencyGraph}
    (hc : Coherent g.parents) (req : List Nat) (lr : Nat) :
    propagateLiveness g req lr
      = (gsweepDown g req lr (fun x => false)).1 := by
  unfold propagateLiveness
  have h0 : (newTree : LTree) = applyOps g.parents newTree [] := rfl
  rw [h0, sweepDown_bridge hc req lr []]
  rfl

/-! ### The upward-closure invariant and pointwise order -/

/-- A state is upward closed when a live node makes all its ancestors
live. -/
def UC (ps : List Nat) (σ : Nat → Bool) : Prop :=
  ∀ x y, y ∈ ancSelf ps x → σ x = true → σ y = true

/-- Pointwise implication of liveness states. -/
def SLe (σ τ : Nat → Bool) : Prop :=
  ∀ x, σ x = true → τ x = true

theorem UC_false (ps : List Nat) : UC ps (fun x => false) := by
  intro x y hxy h
  exact absurd h (by simp)

theorem UC_gstep {ps : List Nat} (hc : Coherent ps) {σ : Nat → Bool}
    (hU : UC ps σ) (op : Op) : UC ps (Gstep ps σ op) := by
  cases op with
  | live b =>
    intro x y hxy h
    simp only [Gstep] at h ⊢
    by_cases hrel : b ∈ ancSelf ps x ∨ x ∈ ancSelf ps b
    · rcases hrel with hrel | hrel
      · rcases anc_total hc x y b hxy hrel with hcase | hcase
        · rw [if_pos (Or.inr hcase)]
        · rw [if_pos (Or.inl hcase)]
      · have : y ∈ ancSelf ps b := ancSelf_trans hc hrel hxy
        rw [if_pos (Or.inr this)]
    · rw [if_neg hrel] at h
      have := hU x y hxy h
      split
      · rfl
      · exact this
  | dead b =>
    intro x y hxy h
    simp only [Gstep] at h ⊢
    by_cases hbx : b ∈ ancSelf ps x
    · rw [if_pos hbx] at h
      exact absurd h (by simp)
    · rw [if_neg hbx] at h
      have hby : b ∉ ancSelf ps y := by
        intro hcon
        exact hbx (ancSelf_trans hc hxy hcon)
      rw [if_neg hby]
      exact hU x y hxy h

theorem SLe_gstep {ps : List Nat} {σ τ : Nat → Bool} (hle : SLe σ τ)
    (op : Op) : SLe (Gstep ps σ op) (Gstep ps τ op) := by
  cases op with
  | live b =>
    intro x h
    simp only [Gstep] at h ⊢
    split
    · rfl
    · rename_i hrel
      rw [if_neg hrel] at h
      exact hle x h
  | dead b =>
    intro x h
    simp only [Gstep] at h ⊢
    split
    · rename_i hrel
      rw [if_pos hrel] at h
      exact absurd h (by simp)
    · rename_i hrel
      rw [if_neg hrel] at h
      exact hle x h

theorem SLe_gstep_live_right {ps : List Nat} {σ τ : Nat → Bool}
    (hle : SLe σ τ) (b : Nat) : SLe σ (Gstep ps τ (.live b)) := by
  intro x h
  simp only [Gstep]
  split
  · rfl
  · exact hle x h

theorem SLe_gstep_dead_right {ps : List Nat} (hc : Coherent ps)
    {σ τ : Nat → Bool} (hU : UC ps σ) {b : Nat} (hb : σ b = false)
    (hle : SLe σ τ) : SLe σ (Gstep ps τ (.dead b)) := by
  intro x h
  simp only [Gstep]
  by_cases hbx : b ∈ ancSelf ps x
  · have := hU x b hbx h
    rw [this] at hb
    exact absurd hb (by simp)
  · rw [if_neg hbx]
    exact hle x h

theorem UC_foldl_live {ps : List Nat} (hc : Coherent ps) :
    ∀ (rs : List Nat) (σ : Nat → Bool), UC ps σ →
      UC ps (rs.foldl (fun σ r => Gstep ps σ (.live r)) σ) := by
  intro rs
  induction rs with
  | nil => intro σ h; exact h
  | cons r rs ih =>
    intro σ h
    exact ih _ (UC_gstep hc h _)

theorem SLe_foldl_live {ps : List Nat} :
    ∀ (rs : List Nat) (σ τ : Nat → Bool), SLe σ τ →
      SLe (rs.foldl (fun σ r => Gstep ps σ (.live r)) σ)
        (rs.foldl (fun τ r => Gstep ps τ (.live r)) τ) := by
  intro rs
  induction rs with
  | nil => intro σ τ h; exact h
  | cons r rs ih =>
    intro σ τ h
    exact ih _ _ (SLe_gstep h _)

theorem SLe_foldl_live_right {ps : List Nat} :
    ∀ (rs : List Nat) (σ τ : Nat → Bool), SLe σ τ →
      SLe σ (rs.foldl (fun τ r => Gstep ps τ (.live r)) τ) := by
  intro rs
  induction rs with
  | nil => intro σ τ h; exact h
  | cons r rs ih =>
    intro σ τ h
    exact ih _ _ (SLe_gstep_live_right h r)

/-- The abstract writes fold: kills are sound on both sides and extra
kills on the larger side only hit states dead on the smaller side. -/
theorem wfold_mono {ps : List Nat} (hc : Coherent ps) :
    ∀ (ws : List Nat) (p q : Bool × (Nat → Bool)),
      UC ps p.2 → UC ps q.2 → SLe p.2 q.2 → (p.1 = true → q.1 = true) →
      UC ps ((ws.foldl (fun r w =>
          if r.2 w then (true, Gstep ps r.2 (.dead w)) else r) p).2) ∧
      UC ps ((ws.foldl (fun r w =>
          if r.2 w then (true, Gstep ps r.2 (.dead w)) else r) q).2) ∧
      SLe ((ws.foldl (fun r w =>
          if r.2 w then (true, Gstep ps r.2 (.dead w)) else r) p).2)
        ((ws.foldl (fun r w =>
          if r.2 w then (true, Gstep ps r.2 (.dead w)) else r) q).2) ∧
      ((ws.foldl (fun r w =>
          if r.2 w then (true, Gstep ps r.2 (.dead w)) else r) p).1 = true →
       (ws.foldl (fun r w =>
          if r.2 w then (true, Gstep ps r.2 (.dead w)) else r) q).1 = true) := by
  intro ws
  induction ws with
  | nil => intro p q h1 h2 h3 h4; exact ⟨h1, h2, h3, h4⟩
  | cons w ws ih =>
    intro p q h1 h2 h3 h4
    simp only [List.foldl_cons]
    by_cases hp : p.2 w = true
    · have hq : q.2 w = true := h3 w hp
      rw [if_pos hp, if_pos hq]
      refine ih _ _ ?_ ?_ ?_ (fun _ => rfl)
      · show UC ps (Gstep ps p.2 (Op.dead w))
        exact UC_gstep hc h1 _
      · show UC ps (Gstep ps q.2 (Op.dead w))
        exact UC_gstep hc h2 _
      · show SLe (Gstep ps p.2 (Op.dead w)) (Gstep ps q.2 (Op.dead w))
        exact SLe_gstep h3 _
    · have hp2 : p.2 w = false := by
        cases hval : p.2 w
        · rfl
        · exact absurd hval hp
      rw [if_neg hp]
      by_cases hq : q.2 w = true
      · rw [if_pos hq]
        refine ih _ _ h1 ?_ ?_ (fun hb => rfl)
        · show UC ps (Gstep ps q.2 (Op.dead w))
          exact UC_gstep hc h2 _
        · show SLe p.2 (Gstep ps q.2 (Op.dead w))
          exact SLe_gstep_dead_right hc h1 hp2 h3
      · rw [if_neg hq]
        exact ih _ _ h1 h2 h3 h4

/-- The abstract modifies check is monotone. -/
theorem mfold_mono :
    ∀ (ms : List Nat) (l l2 : Bool) (σ τ : Nat → Bool), SLe σ τ →
      (l = true → l2 = true) →
      (ms.foldl (fun l m => if σ m then true else l) l = true →
       ms.foldl (fun l m => if τ m then true else l) l2 = true) := by
  intro ms
  induction ms with
  | nil => intro l l2 σ τ hle hb; exact hb
  | cons m ms ih =>
    intro l l2 σ τ hle hb
    simp only [List.foldl_cons]
    by_cases hm : σ m = true
    · rw [if_pos hm, if_pos (hle m hm)]
      exact ih _ _ _ _ hle (fun _ => rfl)
    · rw [if_neg hm]
      by_cases hm2 : τ m = true
      · rw [if_pos hm2]
        exact ih _ _ _ _ hle (fun _ => rfl)
      · rw [if_neg hm2]
        exact ih _ _ _ _ hle hb

/-- The writes/modifies/gen tail of an abstract sweep step. -/
def gsweepTail (ps : List Nat) (ws ms rs : List Nat)
    (p : Bool × (Nat → Bool)) : Bool × (Nat → Bool) :=
  let pw : Bool × (Nat → Bool) :=
    ws.foldl (fun r w => if r.2 w then (true, Gstep ps r.2 (.dead w)) else r) p
  let l2 : Bool := ms.foldl (fun l m => if pw.2 m then true else l) pw.1
  if l2 then
    (l2, rs.foldl (fun σ r => Gstep ps σ (.live r))
      (ms.foldl (fun σ m => Gstep ps σ (.live m)) pw.2))
  else (l2, pw.2)

/-- `gsweepStep` factors through `gsweepTail`. -/
theorem gsweepStep_eq_tail (g : DependencyGraph) (req : List Nat) (i : Nat)
    (σ : Nat → Bool) :
    gsweepStep g req i σ
      = if (getBeh g i).Aborted then ((getBeh g i).KeepAlive, σ)
        else gsweepTail g.parents (getBeh g i).Writes (getBeh g i).Modifies
          (getBeh g i).Reads
          (if i ∈ req then
            (true, g.Roots.foldl (fun σ r => Gstep g.parents σ (.live r)) σ)
          else ((getBeh g i).KeepAlive, σ)) := rfl

/-- Monotonicity of the abstract tail. -/
theorem gsweepTail_mono {ps : List Nat} (hc : Coherent ps)
    (ws ms rs : List Nat) {p q : Bool × (Nat → Bool)}
    (h1 : UC ps p.2) (h2 : UC ps q.2) (h3 : SLe p.2 q.2)
    (h4 : p.1 = true → q.1 = true) :
    UC ps (gsweepTail ps ws ms rs p).2 ∧
    UC ps (gsweepTail ps ws ms rs q).2 ∧
    SLe (gsweepTail ps ws ms rs p).2 (gsweepTail ps ws ms rs q).2 ∧
    ((gsweepTail ps ws ms rs p).1 = true →
     (gsweepTail ps ws ms rs q).1 = true) := by
  obtain ⟨hw1, hw2, hw3, hw4⟩ := wfold_mono hc ws p q h1 h2 h3 h4
  have hbool := mfold_mono ms _ _ _ _ hw3 hw4
  unfold gsweepTail
  simp only
  by_cases hl2 : (ms.foldl (fun l m =>
      if (ws.foldl (fun r w =>
        if r.2 w then (true, Gstep ps r.2 (.dead w)) else r) p).2 m
      then true else l)
      (ws.foldl (fun r w =>
        if r.2 w then (true, Gstep ps r.2 (.dead w)) else r) p).1) = true
  · have hl2q := hbool hl2
    rw [if_pos hl2, if_pos hl2q]
    refine ⟨UC_foldl_live hc rs _ (UC_foldl_live hc ms _ hw1),
      UC_foldl_live hc rs _ (UC_foldl_live hc ms _ hw2),
      SLe_foldl_live rs _ _ (SLe_foldl_live ms _ _ hw3),
      fun _ => hl2q⟩
  · rw [if_neg hl2]
    by_cases hl2q : (ms.foldl (fun l m =>
        if (ws.foldl (fun r w =>
          if r.2 w then (true, Gstep ps r.2 (.dead w)) else r) q).2 m
        then true else l)
        (ws.foldl (fun r w =>
          if r.2 w then (true, Gstep ps r.2 (.dead w)) else r) q).1) = true
    · rw [if_pos hl2q]
      refine ⟨hw1, UC_foldl_live hc rs _ (UC_foldl_live hc ms _ hw2),
        SLe_foldl_live_right rs _ _ (SLe_foldl_live_right ms _ _ hw3),
        fun hcon => absurd hcon hl2⟩
    · rw [if_neg hl2q]
      exact ⟨hw1, hw2, hw3, fun hcon => absurd hcon hl2⟩

/-- Monotonicity of one abstract sweep step in the request set, with the
upward-closure invariants carried along. -/
theorem gsweepStep_mono {g : DependencyGraph} (hc : Coherent g.parents)
    {req req2 : List Nat} (hsub : ∀ x ∈ req, x ∈ req2) (i : Nat)
    {σ τ : Nat → Bool} (h1 : UC g.parents σ) (h2 : UC g.parents τ)
    (h3 : SLe σ τ) :
    UC g.parents (gsweepStep g req i σ).2 ∧
    UC g.parents (gsweepStep g req2 i τ).2 ∧
    SLe (gsweepStep g req i σ).2 (gsweepStep g req2 i τ).2 ∧
    ((gsweepStep g req i σ).1 = true → (gsweepStep g req2 i τ).1 = true) := by
  rw [gsweepStep_eq_tail g req i σ, gsweepStep_eq_tail g req2 i τ]
  by_cases hab : (getBeh g i).Aborted
  · rw [if_pos hab, if_pos hab]
    exact ⟨h1, h2, h3, id⟩
  · rw [if_neg hab, if_neg hab]
    by_cases hreq : i ∈ req
    · rw [if_pos hreq, if_pos (hsub i hreq)]
      refine gsweepTail_mono hc _ _ _ ?_ ?_ ?_ (fun _ => rfl)
      · show UC g.parents
          (g.Roots.foldl (fun σ r => Gstep g.parents σ (.live r)) σ)
        exact UC_foldl_live hc _ _ h1
      · show UC g.parents
          (g.Roots.foldl (fun τ r => Gstep g.parents τ (.live r)) τ)
        exact UC_foldl_live hc _ _ h2
      · show SLe (g.Roots.foldl (fun σ r => Gstep g.parents σ (.live r)) σ)
          (g.Roots.foldl (fun τ r => Gstep g.parents τ (.live r)) τ)
        exact SLe_foldl_live _ _ _ h3
    · rw [if_neg hreq]
      by_cases hreq2 : i ∈ req2
      · rw [if_pos hreq2]
        refine gsweepTail_mono hc _ _ _ h1 ?_ ?_ (fun _ => rfl)
        · show UC g.parents
            (g.Roots.foldl (fun τ r => Gstep g.parents τ (.live r)) τ)
          exact UC_foldl_live hc _ _ h2
        · show SLe σ
            (g.Roots.foldl (fun τ r => Gstep g.parents τ (.live r)) τ)
          exact SLe_foldl_live_right _ _ _ h3
      · rw [if_neg hreq2]
        exact gsweepTail_mono hc _ _ _ h1 h2 h3 id

/-- Monotonicity of the whole abstract sweep. -/
theorem gsweepDown_mono {g : DependencyGraph} (hc : Coherent g.parents)
    {req req2 : List Nat} (hsub : ∀ x ∈ req, x ∈ req2) :
    ∀ (i : Nat) (σ τ : Nat → Bool), UC g.parents σ → UC g.parents τ →
      SLe σ τ → ∀ q ≤ i,
      (gsweepDown g req i σ).1.getD q false = true →
      (gsweepDown g req2 i τ).1.getD q false = true := by
  intro i
  induction i with
  | zero =>
    intro σ τ h1 h2 h3 q hq hlive
    have hq0 : q = 0 := Nat.le_zero.mp hq
    subst hq0
    obtain ⟨m1, m2, m3, m4⟩ := gsweepStep_mono hc hsub 0 h1 h2 h3
    simp only [gsweepDown] at hlive ⊢
    exact m4 hlive
  | succ i ih =>
    intro σ τ h1 h2 h3 q hq hlive
    obtain ⟨m1, m2, m3, m4⟩ := gsweepStep_mono hc hsub (i + 1) h1 h2 h3
    simp only [gsweepDown] at hlive ⊢
    rcases Nat.le_succ_iff_eq_or_le.mp hq with hq1 | hq1
    · subst hq1
      rw [List.getD_append_right _ _ _ _ (by rw [gsweepDown_length])] at hlive
      rw [List.getD_append_right _ _ _ _ (by rw [gsweepDown_length])]
      rw [gsweepDown_length] at hlive ⊢
      simp only [Nat.sub_self] at hlive ⊢
      exact m4 (by simpa using hlive)
    · rw [List.getD_append _ _ _ _
        (by rw [gsweepDown_length]; omega)] at hlive
      rw [List.getD_append _ _ _ _ (by rw [gsweepDown_length]; omega)]
      exact ih _ _ m1 m2 m3 q hq1 hlive

/-- Entries below `i` of a sweep started above `i` are entries of a sweep
started at `i` from some upward-closed intermediate state. -/
theorem gsweepDown_skip {g : DependencyGraph} (hc : Coherent g.parents)
    (req2 : List Nat) :
    ∀ (k i : Nat), i ≤ k → ∀ (τ : Nat → Bool), UC g.parents τ →
      ∃ τ2, UC g.parents τ2 ∧ ∀ q ≤ i,
        (gsweepDown g req2 k τ).1.getD q false
          = (gsweepDown g req2 i τ2).1.getD q false := by
  intro k
  induction k with
  | zero =>
    intro i hi τ h
    have : i = 0 := Nat.le_zero.mp hi
    subst this
    exact ⟨τ, h, fun q hq => rfl⟩
  | succ k ih =>
    intro i hi τ h
    by_cases hik : i = k + 1
    · subst hik
      exact ⟨τ, h, fun q hq => rfl⟩
    · have hik2 : i ≤ k := by omega
      have hτ1 : UC g.parents (gsweepStep g req2 (k + 1) τ).2 :=
        (gsweepStep_mono hc (fun x hx => hx) (k + 1) h h
          (fun x hx => hx)).1
      obtain ⟨τ2, hU2, hs⟩ := ih i hik2 _ hτ1
      refine ⟨τ2, hU2, ?_⟩
      intro q hq
      simp only [gsweepDown]
      rw [List.getD_append _ _ _ _ (by rw [gsweepDown_length]; omega)]
      exact hs q hq

/-- C5: the sweep is monotone in the request set.  For every graph with a
coherent hierarchy, request sets `req ⊆ req2` and sweep bounds
`lastRequest ≤ lastRequest2`, every command live under the smaller sweep
is live under the larger one on the common range. -/
theorem dce_monotone_requests {g : DependencyGraph}
    (hc : Coherent g.parents) {req req2 : List Nat}
    (hsub : ∀ x ∈ req, x ∈ req2) {lr lr2 : Nat} (hlr : lr ≤ lr2)
    {i : Nat} (hi : i ≤ lr)
    (hlive : (propagateLiveness g req lr).getD i false = true) :
    (propagateLiveness g req2 lr2).getD i false = true := by
  rw [propagateLiveness_eq_abstract hc] at hlive ⊢
  obtain ⟨τ2, hU2, hskip⟩ :=
    gsweepDown_skip hc req2 lr2 lr hlr (fun x => false) (UC_false _)
  rw [hskip i hi]
  exact gsweepDown_mono hc hsub lr _ _ (UC_false _) hU2
    (fun x hx => absurd hx (by simp)) i hi hlive

/-- Witness for C5 at concrete inputs: one non-aborted command, request
sets `{0} ⊆ {0}`. -/
theorem dce_monotone_requests_witness :
    Coherent plainGraph.parents ∧
    (∀ x ∈ [0], x ∈ ([0] : List Nat)) ∧ (0 : Nat) ≤ 0 ∧
    (propagateLiveness plainGraph [0] 0).getD 0 false = true ∧
    (propagateLiveness plainGraph [0] 0).getD 0 false = true :=
  ⟨by decide, by decide, by decide, by decide,
    @dce_monotone_requests plainGraph (by decide) [0] [0] (by decide) 0 0
      (by decide) 0 (by decide) (by decide)⟩

end Gapid
